import Mathlib

/-!
Verification of `gpt-artifact-scrub` against its specification.

Shallow embedding of the repository's Python modules:

* `src/modules/images/utils/image.py` — padding, grid suggestion, tile slicing
* `src/modules/shared/services/anti_spam.py` — admission gate
* `src/modules/tracking/utils/payload_encoder.py` — deep-link payloads
* `src/modules/images/infrastructure/telegram_emoji.py` — sticker short names
* `src/modules/images/services/emoji_pack.py` and
  `src/modules/images/infrastructure/storage.py` — job service and job cache
* `src/modules/text/pipeline/normalization/...` — text normalization

Python integers become `Nat`/`Int`, Python floats become `ℚ` (the float
computations under scrutiny are tiny exact comparisons; the embedding uses
exact rational arithmetic), strings become `List Char`, fallible code
returns `Except`.
-/

namespace ArtifactScrub

/-! ## Data model (`src/modules/images/domain/models.py`) -/

/-- `EmojiGridOption`: a `(rows, cols)` pair. -/
structure EmojiGridOption where
  rows : Nat
  cols : Nat
deriving DecidableEq, Repr

instance : Inhabited EmojiGridOption := ⟨⟨1, 1⟩⟩

/-- Derived `tiles` property: `rows * cols`. -/
def EmojiGridOption.tiles (g : EmojiGridOption) : Nat := g.rows * g.cols

/-- `SuggestedGridPlan`: ordered options plus a fallback. -/
structure SuggestedGridPlan where
  options : List EmojiGridOption
  fallback : EmojiGridOption
deriving DecidableEq, Repr

/-! ## Image kernel (`src/modules/images/utils/image.py`) -/

/-- `padding_level_to_pixels(level, tile_size)`: clamp the level at 0,
`step = max(2, tile_size // 20)`, `pixels = level * step`, capped at
`tile_size // 2`.  Python `//` on non-negative operands is `Nat` division. -/
def padding_level_to_pixels (level : Int) (tile_size : Nat) : Nat :=
  let lvl := max 0 level
  let step := max 2 (tile_size / 20)
  let pixels := lvl.toNat * step
  min (tile_size / 2) pixels

/-- The cell-aspect score of a grid option: `abs(cell_ratio - 1.0)` where
`cell_ratio = (width / cols) / (height / rows)`. -/
def gridCellScore (width height : ℚ) (g : EmojiGridOption) : ℚ :=
  |width / (g.cols : ℚ) / (height / (g.rows : ℚ)) - 1|

/-- The candidate list built by the double loop in `suggest_grids`:
`rows` and `cols` range over `1 .. min(10, max_tiles)`, keeping pairs with
`rows * cols ≤ max_tiles`, each paired with its score. -/
def suggestCandidates (width height : ℚ) (max_tiles : Nat) :
    List (ℚ × EmojiGridOption) :=
  (List.range (min 10 max_tiles)).flatMap (fun r =>
    (List.range (min 10 max_tiles)).filterMap (fun c =>
      let g : EmojiGridOption := ⟨r + 1, c + 1⟩
      if g.tiles ≤ max_tiles then some (gridCellScore width height g, g)
      else none))

/-- The sort key used by `candidates.sort(key=lambda item: (item[0], item[1].tiles))`:
lexicographic comparison on `(score, tiles)`. -/
def candLE (a b : ℚ × EmojiGridOption) : Prop :=
  a.1 < b.1 ∨ (a.1 = b.1 ∧ a.2.tiles ≤ b.2.tiles)

instance : DecidableRel candLE := fun a b => by
  unfold candLE; infer_instance

instance : IsTotal (ℚ × EmojiGridOption) candLE where
  total a b := by
    unfold candLE
    rcases lt_trichotomy a.1 b.1 with h | h | h
    · exact Or.inl (Or.inl h)
    · rcases Nat.le_total a.2.tiles b.2.tiles with h' | h'
      · exact Or.inl (Or.inr ⟨h, h'⟩)
      · exact Or.inr (Or.inr ⟨h.symm, h'⟩)
    · exact Or.inr (Or.inl h)

instance : IsTrans (ℚ × EmojiGridOption) candLE where
  trans a b c hab hbc := by
    unfold candLE at *
    rcases hab with h1 | ⟨h1, h1'⟩ <;> rcases hbc with h2 | ⟨h2, h2'⟩
    · exact Or.inl (h1.trans h2)
    · exact Or.inl (h2 ▸ h1)
    · exact Or.inl (h1 ▸ h2)
    · exact Or.inr ⟨h1.trans h2, h1'.trans h2'⟩

/-- The dedup-and-truncate loop of `suggest_grids`: walk the sorted options,
append an option if it is not already kept, stop as soon as `limit` options
are kept.  `acc` holds the kept options in reverse order. -/
def takeUniqueAux (limit : Nat) :
    List EmojiGridOption → List EmojiGridOption → List EmojiGridOption
  | acc, [] => acc.reverse
  | acc, o :: rest =>
    let acc' := if o ∈ acc then acc else o :: acc
    if limit ≤ acc'.length then acc'.reverse else takeUniqueAux limit acc' rest

/-- `suggest_grids(width, height, max_tiles, limit)`: sort the candidates by
`(score, tiles)` (Python's sort and insertion sort are both stable, so they
agree), keep the first `limit` distinct options, fall back to `1×1` when the
candidate list is empty, otherwise the first option. -/
def suggest_grids (width height : ℚ) (max_tiles : Nat) (limit : Nat) :
    SuggestedGridPlan :=
  let sorted := List.insertionSort candLE (suggestCandidates width height max_tiles)
  let unique := takeUniqueAux limit [] (sorted.map Prod.snd)
  match unique with
  | [] => ⟨[⟨1, 1⟩], ⟨1, 1⟩⟩
  | o :: rest => ⟨o :: rest, o⟩

/-- Sort key on bare options (score recomputed from the option, as the claim
states it). -/
def gridKeyLE (width height : ℚ) (a b : EmojiGridOption) : Prop :=
  gridCellScore width height a < gridCellScore width height b ∨
    (gridCellScore width height a = gridCellScore width height b ∧
      a.tiles ≤ b.tiles)

theorem takeUniqueAux_eq_append (limit : Nat) :
    ∀ (l acc : List EmojiGridOption),
      ∃ u, takeUniqueAux limit acc l = acc.reverse ++ u ∧ u.Sublist l
  | [], acc => ⟨[], by simp [takeUniqueAux]⟩
  | o :: rest, acc => by
    by_cases hmem : o ∈ acc
    · by_cases hlen : limit ≤ acc.length
      · exact ⟨[], by simp [takeUniqueAux, hmem, hlen], List.nil_sublist _⟩
      · obtain ⟨u, hu, hsub⟩ := takeUniqueAux_eq_append limit rest acc
        exact ⟨u, by simp [takeUniqueAux, hmem, hlen, hu], hsub.cons o⟩
    · by_cases hlen : limit ≤ acc.length + 1
      · refine ⟨[o], by simp [takeUniqueAux, hmem, hlen], ?_⟩
        exact (List.nil_sublist rest).cons₂ o
      · obtain ⟨u, hu, hsub⟩ := takeUniqueAux_eq_append limit rest (o :: acc)
        refine ⟨o :: u, ?_, hsub.cons₂ o⟩
        simp only [takeUniqueAux, if_neg hmem, List.length_cons, if_neg hlen, hu,
          List.reverse_cons]
        simp

theorem takeUniqueAux_nodup (limit : Nat) :
    ∀ (l acc : List EmojiGridOption), acc.Nodup →
      (takeUniqueAux limit acc l).Nodup
  | [], acc, h => by simpa [takeUniqueAux] using h
  | o :: rest, acc, h => by
    by_cases hmem : o ∈ acc
    · by_cases hlen : limit ≤ acc.length
      · simpa [takeUniqueAux, hmem, hlen] using h
      · simpa [takeUniqueAux, hmem, hlen] using
          takeUniqueAux_nodup limit rest acc h
    · have h' : (o :: acc).Nodup := List.Nodup.cons hmem h
      by_cases hlen : limit ≤ acc.length + 1
      · simp only [takeUniqueAux, if_neg hmem, List.length_cons, if_pos hlen]
        exact List.nodup_reverse.mpr h'
      · simpa [takeUniqueAux, hmem, hlen] using
          takeUniqueAux_nodup limit rest (o :: acc) h'

theorem takeUniqueAux_length (limit : Nat) :
    ∀ (l acc : List EmojiGridOption), acc.length < limit →
      (takeUniqueAux limit acc l).length ≤ limit
  | [], acc, h => by simpa [takeUniqueAux] using Nat.le_of_lt h
  | o :: rest, acc, h => by
    by_cases hmem : o ∈ acc
    · by_cases hlen : limit ≤ acc.length
      · simpa [takeUniqueAux, hmem, hlen] using Nat.le_of_lt h
      · simpa [takeUniqueAux, hmem, hlen] using
          takeUniqueAux_length limit rest acc h
    · by_cases hlen : limit ≤ acc.length + 1
      · simp only [takeUniqueAux, if_neg hmem, List.length_cons, if_pos hlen,
          List.length_reverse]
        omega
      · simpa [takeUniqueAux, hmem, hlen] using
          takeUniqueAux_length limit rest (o :: acc)
            (by simp only [List.length_cons]; omega)

theorem mem_suggestCandidates {width height : ℚ} {max_tiles : Nat}
    {p : ℚ × EmojiGridOption}
    (hp : p ∈ suggestCandidates width height max_tiles) :
    1 ≤ p.2.rows ∧ p.2.rows ≤ 10 ∧ 1 ≤ p.2.cols ∧ p.2.cols ≤ 10 ∧
      p.2.tiles ≤ max_tiles ∧ p.1 = gridCellScore width height p.2 := by
  simp only [suggestCandidates, List.mem_flatMap, List.mem_filterMap,
    List.mem_range] at hp
  obtain ⟨r, hr, c, hc, h⟩ := hp
  split_ifs at h with ht
  · injection h with h'
    subst h'
    refine ⟨?_, ?_, ?_, ?_, ?_, rfl⟩
    · show 1 ≤ r + 1; omega
    · show r + 1 ≤ 10; omega
    · show 1 ≤ c + 1; omega
    · show c + 1 ≤ 10; omega
    · show (r + 1) * (c + 1) ≤ max_tiles
      simpa [EmojiGridOption.tiles] using ht

theorem suggestCandidates_ne_nil {width height : ℚ} {max_tiles : Nat}
    (hmt : 1 ≤ max_tiles) : suggestCandidates width height max_tiles ≠ [] := by
  intro h
  have h11 : (gridCellScore width height ⟨1, 1⟩, (⟨1, 1⟩ : EmojiGridOption)) ∈
      suggestCandidates width height max_tiles := by
    simp only [suggestCandidates, List.mem_flatMap, List.mem_filterMap,
      List.mem_range]
    refine ⟨0, by omega, 0, by omega, ?_⟩
    simp [EmojiGridOption.tiles, hmt]
  rw [h] at h11
  cases h11

/-- C3: `padding_level_to_pixels` computes exactly
`min(tile_size/2, max(0, level) * max(2, tile_size/20))` (integer division),
and `padding_px(2, 100) = 10`. -/
theorem padding_level_to_pixels_formula (level : Int) (tile_size : Nat)
    (h : 1 ≤ tile_size) :
    padding_level_to_pixels level tile_size =
      min (tile_size / 2) ((max 0 level).toNat * max 2 (tile_size / 20)) ∧
    padding_level_to_pixels 2 100 = 10 :=
  ⟨rfl, by decide⟩

/-- Witness for C3 at `level = 2`, `tile_size = 100`. -/
theorem padding_level_to_pixels_formula_witness :
    padding_level_to_pixels 2 100 = 10 :=
  (padding_level_to_pixels_formula 2 100 (by omega)).2

/-! ## Admission gate (`src/modules/shared/services/anti_spam.py`)

The guard keys per-user `_AntiSpamState` records by user id; `time.monotonic()`
is modelled by passing the current instant `now : ℚ` to each operation, and
the single `asyncio.Lock` makes each operation atomic, so the embedding is a
sequential state machine. -/

/-- `_AntiSpamState`: `busy` flag plus monotonic `last_action` instant. -/
structure AntiSpamState where
  busy : Bool
  last_action : ℚ
deriving DecidableEq, Repr

/-- `AntiSpamGuard`: cooldown plus the per-user state dictionary. -/
structure AntiSpamGuard where
  cooldown : ℚ
  states : Int → Option AntiSpamState

/-- `self._states[user_id] = st`. -/
def AntiSpamGuard.setState (g : AntiSpamGuard) (user_id : Int)
    (st : AntiSpamState) : AntiSpamGuard :=
  { g with states := fun u => if u = user_id then some st else g.states u }

/-- `try_acquire(user_id)`: reject when a stored state is busy or within the
cooldown window (updating `last_action` on rejection as well), otherwise store
a busy state stamped `now` and accept. -/
def AntiSpamGuard.try_acquire (g : AntiSpamGuard) (now : ℚ) (user_id : Int) :
    Bool × AntiSpamGuard :=
  match g.states user_id with
  | some st =>
    if st.busy = true ∨ now - st.last_action < g.cooldown then
      (false, g.setState user_id { st with last_action := now })
    else
      (true, g.setState user_id ⟨true, now⟩)
  | none => (true, g.setState user_id ⟨true, now⟩)

/-- `release(user_id)`: store a non-busy state stamped `now`. -/
def AntiSpamGuard.release (g : AntiSpamGuard) (now : ℚ) (user_id : Int) :
    AntiSpamGuard :=
  g.setState user_id ⟨false, now⟩

/-- `reset(user_id)`: `self._states.pop(user_id, None)`. -/
def AntiSpamGuard.reset (g : AntiSpamGuard) (user_id : Int) : AntiSpamGuard :=
  { g with states := fun u => if u = user_id then none else g.states u }

/-- One guard operation for a fixed user, stamped with its instant. -/
inductive GuardOp where
  | tryOp (t : ℚ)
  | releaseOp (t : ℚ)
deriving DecidableEq, Repr

def GuardOp.time : GuardOp → ℚ
  | .tryOp t => t
  | .releaseOp t => t

def GuardOp.isRelease : GuardOp → Bool
  | .tryOp _ => false
  | .releaseOp _ => true

def AntiSpamGuard.step (g : AntiSpamGuard) (user_id : Int) :
    GuardOp → AntiSpamGuard
  | .tryOp t => (g.try_acquire t user_id).2
  | .releaseOp t => g.release t user_id

def AntiSpamGuard.runOps (g : AntiSpamGuard) (user_id : Int) :
    List GuardOp → AntiSpamGuard
  | [] => g
  | op :: rest => (g.step user_id op).runOps user_id rest

theorem runOps_states_last (u : Int) :
    ∀ (ops : List GuardOp) (g : AntiSpamGuard) (st : AntiSpamState),
      g.states u = some st →
      ∃ st', (g.runOps u ops).states u = some st' ∧
        st'.last_action = (ops.map GuardOp.time).getLastD st.last_action
  | [], g, st, h => ⟨st, h, rfl⟩
  | op :: rest, g, st, h => by
    have hstep : ∃ st₁, (g.step u op).states u = some st₁ ∧
        st₁.last_action = op.time := by
      cases op with
      | tryOp t =>
        by_cases hc : st.busy = true ∨ t - st.last_action < g.cooldown
        · refine ⟨{ st with last_action := t }, ?_, rfl⟩
          simp [AntiSpamGuard.step, AntiSpamGuard.try_acquire, h, hc,
            AntiSpamGuard.setState]
        · refine ⟨⟨true, t⟩, ?_, rfl⟩
          simp [AntiSpamGuard.step, AntiSpamGuard.try_acquire, h, hc,
            AntiSpamGuard.setState]
      | releaseOp t =>
        exact ⟨⟨false, t⟩, by simp [AntiSpamGuard.step, AntiSpamGuard.release,
          AntiSpamGuard.setState], rfl⟩
    obtain ⟨st₁, h₁, ht₁⟩ := hstep
    obtain ⟨st', h', ht'⟩ := runOps_states_last u rest (g.step u op) st₁ h₁
    refine ⟨st', ?_, ?_⟩
    · simpa [AntiSpamGuard.runOps] using h'
    · rw [ht', ht₁, List.map_cons, List.getLastD_cons]

theorem runOps_busy_of_no_release (u : Int) :
    ∀ (ops : List GuardOp) (g : AntiSpamGuard) (st : AntiSpamState),
      g.states u = some st → st.busy = true →
      (∀ op ∈ ops, op.isRelease = false) →
      ∃ st', (g.runOps u ops).states u = some st' ∧ st'.busy = true
  | [], g, st, h, hb, _ => ⟨st, h, hb⟩
  | op :: rest, g, st, h, hb, hno => by
    cases op with
    | tryOp t =>
      have hstep : (g.step u (.tryOp t)).states u =
          some { st with last_action := t } := by
        simp [AntiSpamGuard.step, AntiSpamGuard.try_acquire, h, hb,
          AntiSpamGuard.setState]
      obtain ⟨st', h', hb'⟩ := runOps_busy_of_no_release u rest _ _ hstep hb
        (fun op hop => hno op (List.mem_cons_of_mem _ hop))
      exact ⟨st', by simpa [AntiSpamGuard.runOps] using h', hb'⟩
    | releaseOp t =>
      exact absurd (hno _ (List.mem_cons_self _ _)) (by simp [GuardOp.isRelease])

theorem pairwise_le_getLastD {d : ℚ} {l : List ℚ}
    (h : (d :: l).Pairwise (· ≤ ·)) :
    ∀ x ∈ d :: l, x ≤ l.getLastD d := by
  induction l generalizing d with
  | nil =>
    intro x hx
    rcases List.mem_singleton.mp hx with rfl
    rw [List.getLastD_nil]
  | cons a l' ih =>
    intro x hx
    have hpair : (a :: l').Pairwise (· ≤ ·) := h.of_cons
    have hda : d ≤ a := (List.pairwise_cons.mp h).1 a (List.mem_cons_self _ _)
    rw [List.getLastD_cons]
    rcases List.mem_cons.mp hx with rfl | hx'
    · exact hda.trans (ih hpair a (List.mem_cons_self _ _))
    · exact ih hpair x hx'

/-- Running operations never changes the cooldown. -/
theorem runOps_cooldown (u : Int) :
    ∀ (ops : List GuardOp) (g : AntiSpamGuard),
      (g.runOps u ops).cooldown = g.cooldown
  | [], _ => rfl
  | op :: rest, g => by
    have h := runOps_cooldown u rest (g.step u op)
    have hstep : (g.step u op).cooldown = g.cooldown := by
      cases op with
      | tryOp t =>
        cases hst : g.states u with
        | none =>
          simp [AntiSpamGuard.step, AntiSpamGuard.try_acquire, hst,
            AntiSpamGuard.setState]
        | some st =>
          by_cases hc : st.busy = true ∨ t - st.last_action < g.cooldown <;>
            simp [AntiSpamGuard.step, AntiSpamGuard.try_acquire, hst, hc,
              AntiSpamGuard.setState]
      | releaseOp t => rfl
    simpa [AntiSpamGuard.runOps, hstep] using h

/-- Scenario-S5 guard: cooldown 2 s, no users seen yet. -/
def s5guard : AntiSpamGuard := ⟨2, fun _ => none⟩

def s5g1 : AntiSpamGuard := (s5guard.try_acquire 0 42).2

def s5g2 : AntiSpamGuard := (s5g1.try_acquire (1/2) 42).2

def s5g3 : AntiSpamGuard := s5g2.release 1 42

def s5g4 : AntiSpamGuard := (s5g3.try_acquire (3/2) 42).2

/-- C6: `try_acquire` accepts exactly when the user state is absent, or
non-busy with the cooldown elapsed; `last_action` is stamped on both
acceptance and rejection (rejection preserves `busy`); acceptance sets
`busy`; `release` stores `busy = false, last_action = now`; consequently,
once acquired, every later `try_acquire` in a run of guard operations with
monotone timestamps fails until a `release` appears and the cooldown has
elapsed since every earlier operation; and the scenario-S5 trace evaluates
to true, false, false, true. -/
theorem anti_spam_gate_contract :
    (∀ (g : AntiSpamGuard) (now : ℚ) (u : Int),
      (g.try_acquire now u).1 = true ↔
        (g.states u = none ∨ ∃ st, g.states u = some st ∧ st.busy = false ∧
          g.cooldown ≤ now - st.last_action)) ∧
    (∀ (g : AntiSpamGuard) (now : ℚ) (u : Int),
      ∃ st', ((g.try_acquire now u).2).states u = some st' ∧
        st'.last_action = now ∧
        ((g.try_acquire now u).1 = true → st'.busy = true) ∧
        ((g.try_acquire now u).1 = false →
          ∃ st, g.states u = some st ∧ st'.busy = st.busy)) ∧
    (∀ (g : AntiSpamGuard) (now : ℚ) (u : Int),
      (g.release now u).states u = some ⟨false, now⟩) ∧
    (∀ (g : AntiSpamGuard) (u : Int) (t0 : ℚ) (ops : List GuardOp)
        (i : Nat) (t : ℚ),
      g.states u = some ⟨true, t0⟩ →
      (t0 :: ops.map GuardOp.time).Pairwise (· ≤ ·) →
      ops[i]? = some (.tryOp t) →
      ((g.runOps u (ops.take i)).try_acquire t u).1 = true →
      (∃ j, j < i ∧ ∃ r, ops[j]? = some (.releaseOp r)) ∧
      (∀ j op, j < i → ops[j]? = some op → op.time + g.cooldown ≤ t) ∧
      t0 + g.cooldown ≤ t) ∧
    ((s5guard.try_acquire 0 42).1 = true ∧
      (s5g1.try_acquire (1/2) 42).1 = false ∧
      (s5g3.try_acquire (3/2) 42).1 = false ∧
      (s5g4.try_acquire (7/2) 42).1 = true) := by
  refine ⟨?_, ?_, ?_, ?_, ?_⟩
  · intro g now u
    cases hst : g.states u with
    | none => simp [AntiSpamGuard.try_acquire, hst]
    | some st =>
      by_cases hc : st.busy = true ∨ now - st.last_action < g.cooldown
      · have hres : (g.try_acquire now u).1 = false := by
          simp [AntiSpamGuard.try_acquire, hst, if_pos hc]
        rw [hres]
        constructor
        · intro h; cases h
        · rintro (h | ⟨st', hst', hbusy, hcool⟩)
          · exact Option.noConfusion h
          · injection hst' with h'
            subst h'
            rcases hc with hb | hlt
            · rw [hbusy] at hb; cases hb
            · exact absurd hcool (not_le.mpr hlt)
      · have hres : (g.try_acquire now u).1 = true := by
          simp [AntiSpamGuard.try_acquire, hst, if_neg hc]
        rw [hres]
        push_neg at hc
        constructor
        · intro _
          refine Or.inr ⟨st, rfl, ?_, hc.2⟩
          cases hb : st.busy with
          | false => rfl
          | true => exact absurd hb hc.1
        · intro _
          rfl
  · intro g now u
    cases hst : g.states u with
    | none =>
      refine ⟨⟨true, now⟩, ?_, rfl, fun _ => rfl, fun h => ?_⟩
      · simp [AntiSpamGuard.try_acquire, hst, AntiSpamGuard.setState]
      · simp only [AntiSpamGuard.try_acquire, hst] at h
        cases h
    | some st =>
      by_cases hc : st.busy = true ∨ now - st.last_action < g.cooldown
      · refine ⟨{ st with last_action := now }, ?_, rfl, fun h => ?_,
          fun _ => ⟨st, by simp [hst], rfl⟩⟩
        · simp [AntiSpamGuard.try_acquire, hst, if_pos hc,
            AntiSpamGuard.setState]
        · simp only [AntiSpamGuard.try_acquire, hst, if_pos hc] at h
          cases h
      · refine ⟨⟨true, now⟩, ?_, rfl, fun _ => rfl, fun h => ?_⟩
        · simp [AntiSpamGuard.try_acquire, hst, if_neg hc,
            AntiSpamGuard.setState]
        · simp only [AntiSpamGuard.try_acquire, hst, if_neg hc] at h
          cases h
  · intro g now u
    simp [AntiSpamGuard.release, AntiSpamGuard.setState]
  · intro g u t0 ops i t hstart hmono hop hacc
    have hjlen : i < ops.length := by
      by_contra hge
      rw [List.getElem?_eq_none (by omega)] at hop
      cases hop
    obtain ⟨stp, hstp, hlastp⟩ :=
      runOps_states_last u (ops.take i) g ⟨true, t0⟩ hstart
    have hcd : (g.runOps u (ops.take i)).cooldown = g.cooldown :=
      runOps_cooldown u (ops.take i) g
    -- the accepting branch of try_acquire forces ¬busy and cooldown elapsed
    have hnotc : ¬(stp.busy = true ∨
        t - stp.last_action < (g.runOps u (ops.take i)).cooldown) := by
      intro hc
      simp only [AntiSpamGuard.try_acquire, hstp, if_pos hc] at hacc
      exact Bool.noConfusion hacc
    push_neg at hnotc
    obtain ⟨hbusyp, hcoolp⟩ := hnotc
    rw [hcd] at hcoolp
    -- the prefix contains a release
    have hrel : ∃ op ∈ ops.take i, op.isRelease = true := by
      by_contra hno
      push_neg at hno
      obtain ⟨st', hst', hb'⟩ := runOps_busy_of_no_release u (ops.take i) g
        ⟨true, t0⟩ hstart rfl
        (fun op hop' => by
          cases hrel : op.isRelease with
          | false => rfl
          | true => exact absurd hrel (hno op hop'))
      rw [hstp] at hst'
      injection hst' with h'
      rw [← h'] at hb'
      exact absurd hb' hbusyp
    -- timestamps of the prefix are bounded by the stored last_action
    have hmono' : (t0 :: (ops.take i).map GuardOp.time).Pairwise (· ≤ ·) := by
      refine List.Pairwise.sublist ?_ hmono
      exact List.Sublist.cons₂ _ (by
        rw [List.map_take]
        exact List.take_sublist _ _)
    have hbound : ∀ x ∈ t0 :: (ops.take i).map GuardOp.time,
        x ≤ stp.last_action := by
      intro x hx
      rw [hlastp]
      exact pairwise_le_getLastD hmono' x hx
    have hlastle : stp.last_action + g.cooldown ≤ t := by linarith
    refine ⟨?_, ?_, ?_⟩
    · obtain ⟨op, hopmem, hoprel⟩ := hrel
      obtain ⟨j, hj, hjeq⟩ := List.mem_iff_getElem.mp hopmem
      have hj' : j < i ∧ j < ops.length := by
        rw [List.length_take] at hj
        omega
      rw [List.getElem_take] at hjeq
      have hjops : ops[j]? = some op := by
        rw [List.getElem?_eq_getElem hj'.2, hjeq]
      cases op with
      | tryOp r => cases hoprel
      | releaseOp r => exact ⟨j, hj'.1, r, hjops⟩
    · intro j op hjlt hjop
      have hjl : j < ops.length := by
        by_contra hge
        rw [List.getElem?_eq_none (by omega)] at hjop
        cases hjop
      have hmem : op ∈ ops.take i := by
        rw [List.mem_take_iff_getElem]
        refine ⟨j, lt_inf_iff.mpr ⟨hjlt, hjl⟩, ?_⟩
        rw [List.getElem?_eq_getElem hjl] at hjop
        injection hjop with h'
        all_goals exact h'
      have := hbound op.time (List.mem_cons_of_mem _ (List.mem_map_of_mem _ hmem))
      linarith
    · have := hbound t0 (List.mem_cons_self _ _)
      linarith
  · have h1s : s5g1.states 42 = some ⟨true, 0⟩ := by
      norm_num [s5g1, s5guard, AntiSpamGuard.try_acquire,
        AntiSpamGuard.setState]
    have h1c : s5g1.cooldown = 2 := rfl
    have h2s : s5g2.states 42 = some ⟨true, 1/2⟩ := by
      simp only [s5g2, AntiSpamGuard.try_acquire, h1s]
      rw [if_pos (Or.inl trivial)]
      all_goals simp [AntiSpamGuard.setState]
    have h2c : s5g2.cooldown = 2 := by
      simp only [s5g2, AntiSpamGuard.try_acquire, h1s]
      rw [if_pos (Or.inl trivial)]
      exact h1c
    have h3s : s5g3.states 42 = some ⟨false, 1⟩ := by
      simp [s5g3, AntiSpamGuard.release, AntiSpamGuard.setState]
    have h3c : s5g3.cooldown = 2 := h2c
    have h4s : s5g4.states 42 = some ⟨false, 3/2⟩ := by
      simp only [s5g4, AntiSpamGuard.try_acquire, h3s, h3c]
      rw [if_pos (Or.inr (by norm_num))]
      all_goals simp [AntiSpamGuard.setState]
    have h4c : s5g4.cooldown = 2 := by
      simp only [s5g4, AntiSpamGuard.try_acquire, h3s, h3c]
      rw [if_pos (Or.inr (by norm_num))]
      exact h3c
    refine ⟨rfl, ?_, ?_, ?_⟩
    · simp only [AntiSpamGuard.try_acquire, h1s]
      rw [if_pos (Or.inl trivial)]
    · simp only [AntiSpamGuard.try_acquire, h3s, h3c]
      rw [if_pos (Or.inr (by norm_num))]
    · simp only [AntiSpamGuard.try_acquire, h4s, h4c]
      rw [if_neg (by norm_num)]

/-- Witness for C6's trace consequence: a one-release trace starting from a
busy state, with the successful retry at `t = 4`. -/
theorem anti_spam_gate_contract_witness :
    (∃ j, j < 1 ∧ ∃ r,
      ([GuardOp.releaseOp 1, GuardOp.tryOp 4] : List GuardOp)[j]? =
        some (.releaseOp r)) ∧
    (0 : ℚ) + 2 ≤ 4 := by
  have h := anti_spam_gate_contract.2.2.2.1
    ⟨2, fun u => if u = 42 then some ⟨true, 0⟩ else none⟩ 42 0
    [.releaseOp 1, .tryOp 4] 1 4
    (by norm_num)
    (by norm_num [List.pairwise_cons, GuardOp.time])
    rfl
    (by norm_num [AntiSpamGuard.runOps, AntiSpamGuard.step,
      AntiSpamGuard.release, AntiSpamGuard.setState,
      AntiSpamGuard.try_acquire])
  exact ⟨h.1, h.2.2⟩

/-- C10: `reset(user_id)` deletes the stored state outright, and because
`try_acquire` treats an absent state as immediately acquirable, the very next
`try_acquire` for that user succeeds unconditionally, whatever the busy flag
or cooldown were. -/
theorem reset_forces_admission (g : AntiSpamGuard) (u : Int) (now : ℚ) :
    (g.reset u).states u = none ∧
    ((g.reset u).try_acquire now u).1 = true := by
  constructor
  · simp [AntiSpamGuard.reset]
  · simp [AntiSpamGuard.try_acquire, AntiSpamGuard.reset]

/-! ## Python number formatting helpers -/

/-- Decimal digits of `n`, least significant first, as characters; `fuel`
bounds the recursion and any `fuel ≥ n` gives the exact digits. -/
def natDigitsAux : Nat → Nat → List Char
  | _, 0 => []
  | 0, _ => []
  | fuel + 1, n => Char.ofNat (48 + n % 10) :: natDigitsAux fuel (n / 10)

/-- Python `str(n)` for a non-negative integer. -/
def natStr (n : Nat) : List Char :=
  if n = 0 then ['0'] else (natDigitsAux n n).reverse

/-- Python `round()` on an exact rational: round half to even. -/
def pyRound (q : ℚ) : Int :=
  let f := ⌊q⌋
  let r := q - f
  if r < 1/2 then f
  else if 1/2 < r then f + 1
  else if f % 2 = 0 then f else f + 1

/-! ## Tile slicing (`slice_into_tiles` in `image.py`)

PIL images are modelled by their observable geometry: width, height and
channel count (`RGBA` = 4 channels).  `convert`, `resize`, `new`, `crop` act
on that geometry exactly as PIL does; `paste` changes pixels only, so it
leaves the model unchanged.  Decoding is modelled by starting from a
`PILImage` with the decoded dimensions; raster formats decode to images with
positive dimensions. -/

structure PILImage where
  width : Nat
  height : Nat
  channels : Nat
deriving DecidableEq, Repr

/-- `image.convert("RGBA")`. -/
def PILImage.convertRGBA (img : PILImage) : PILImage := { img with channels := 4 }

/-- `image.resize((w, h), Image.LANCZOS)`. -/
def PILImage.resize (img : PILImage) (w h : Nat) : PILImage := ⟨w, h, img.channels⟩

/-- `image.crop((left, upper, right, lower))`. -/
def PILImage.crop (img : PILImage) (left upper right lower : Nat) : PILImage :=
  ⟨right - left, lower - upper, img.channels⟩

/-- `Image.new("RGBA", (w, h), (0, 0, 0, 0))`. -/
def imageNewRGBA (w h : Nat) : PILImage := ⟨w, h, 4⟩

/-- One output file of the slicing step: `tile_image.save(path, format="PNG")`
under the name `f"{prefix}_{row}_{col}.png"`. -/
structure TileFile where
  name : List Char
  format : List Char
  image : PILImage
deriving DecidableEq, Repr

/-- `slice_into_tiles(image_bytes, grid, padding, tile_size, temp_dir, prefix)`
after decoding `image_bytes` to `source`; `stem` is the file prefix. -/
def slice_into_tiles (source : PILImage) (grid : EmojiGridOption)
    (padding : Int) (tile_size : Nat) (stem : List Char) : List TileFile :=
  let padding_px := padding_level_to_pixels padding tile_size
  let rgba := source.convertRGBA
  let width := rgba.width
  let height := rgba.height
  if width = 0 ∨ height = 0 then [] else
    let full_width := tile_size * grid.cols
    let full_height := tile_size * grid.rows
    let total_horizontal_padding := if 0 < grid.cols then padding_px * 2 else 0
    let total_vertical_padding := if 0 < grid.rows then padding_px * 2 else 0
    let available_width := max 1 (full_width - total_horizontal_padding)
    let available_height := max 1 (full_height - total_vertical_padding)
    let scale_x : ℚ := (available_width : ℚ) / width
    let scale_y : ℚ := (available_height : ℚ) / height
    let scale := min scale_x scale_y
    let scaled_width := max 1 (pyRound (width * scale)).toNat
    let scaled_height := max 1 (pyRound (height * scale)).toNat
    let scaled_image := rgba.resize scaled_width scaled_height
    let full_canvas := imageNewRGBA full_width full_height
    let offset_x := padding_px + max 0 ((available_width - scaled_width) / 2)
    let offset_y := padding_px + max 0 ((available_height - scaled_height) / 2)
    -- full_canvas.paste(scaled_image, (offset_x, offset_y), mask=scaled_image)
    -- changes pixels only; the pasted-into canvas keeps its size and mode
    let _ := scaled_image
    let _ := (offset_x, offset_y)
    (List.range grid.rows).flatMap (fun row =>
      (List.range grid.cols).map (fun col =>
        let left := col * tile_size
        let upper := row * tile_size
        let right := left + tile_size
        let lower := upper + tile_size
        let tile_image := full_canvas.crop left upper right lower
        { name := stem ++ ('_' :: natStr row) ++ ('_' :: natStr col) ++
            ".png".toList,
          format := "PNG".toList,
          image := tile_image }))

/-- Row-major reindexing of a rows×cols double loop. -/
theorem flatMap_range_map_eq {α : Type} (rows cols : Nat) (f : Nat → Nat → α) :
    (List.range rows).flatMap (fun r => (List.range cols).map (f r)) =
      (List.range (rows * cols)).map (fun i => f (i / cols) (i % cols)) := by
  induction rows with
  | zero => simp
  | succ n ih =>
    rw [List.range_succ, List.flatMap_append, ih, Nat.succ_mul, List.range_add,
      List.map_append]
    congr 1
    · simp only [List.flatMap_cons, List.flatMap_nil, List.append_nil]
      rw [List.map_map]
      refine List.map_congr_left ?_
      intro j hj
      rw [List.mem_range] at hj
      have hcols : 0 < cols := by omega
      simp only [Function.comp_apply]
      have h1 : (n * cols + j) / cols = n := by
        rw [Nat.add_comm, Nat.add_mul_div_right _ _ hcols,
          Nat.div_eq_of_lt hj, Nat.zero_add]
      have h2 : (n * cols + j) % cols = j := by
        rw [Nat.add_comm, Nat.add_mul_mod_self_right, Nat.mod_eq_of_lt hj]
      rw [h1, h2]

/-- C2: slicing a decoded image yields exactly `rows * cols` tiles, in
row-major order (tile `i` is row `i / cols`, column `i % cols`), each a
`tile_size × tile_size` 4-channel image saved as PNG. -/
theorem slice_into_tiles_spec (source : PILImage) (grid : EmojiGridOption)
    (padding : Int) (tile_size : Nat) (stem : List Char)
    (hw : 1 ≤ source.width) (hh : 1 ≤ source.height) :
    (slice_into_tiles source grid padding tile_size stem).length =
      grid.rows * grid.cols ∧
    ∀ i, i < grid.rows * grid.cols →
      (slice_into_tiles source grid padding tile_size stem)[i]? =
        some ⟨stem ++ ('_' :: natStr (i / grid.cols)) ++
            ('_' :: natStr (i % grid.cols)) ++ ".png".toList,
          "PNG".toList, ⟨tile_size, tile_size, 4⟩⟩ := by
  have hcond : ¬(source.convertRGBA.width = 0 ∨ source.convertRGBA.height = 0) := by
    simp only [PILImage.convertRGBA]
    push_neg
    omega
  have heq : slice_into_tiles source grid padding tile_size stem =
      (List.range (grid.rows * grid.cols)).map (fun i =>
        { name := stem ++ ('_' :: natStr (i / grid.cols)) ++
            ('_' :: natStr (i % grid.cols)) ++ ".png".toList,
          format := "PNG".toList,
          image := (imageNewRGBA (tile_size * grid.cols)
              (tile_size * grid.rows)).crop ((i % grid.cols) * tile_size)
              ((i / grid.cols) * tile_size)
              ((i % grid.cols) * tile_size + tile_size)
              ((i / grid.cols) * tile_size + tile_size) }) := by
    rw [slice_into_tiles, if_neg hcond]
    exact flatMap_range_map_eq grid.rows grid.cols _
  constructor
  · rw [heq, List.length_map, List.length_range]
  · intro i hi
    rw [heq]
    rw [List.getElem?_eq_getElem (by rw [List.length_map, List.length_range]; exact hi)]
    rw [List.getElem_map, List.getElem_range]
    simp only [PILImage.crop, imageNewRGBA, Nat.add_sub_cancel_left]

/-- Witness for C2 at a 200×100 RGB source, 1×2 grid, padding 2, tile 100. -/
theorem slice_into_tiles_spec_witness :
    (slice_into_tiles ⟨200, 100, 3⟩ ⟨1, 2⟩ 2 100 ['t']).length = 1 * 2 :=
  (slice_into_tiles_spec ⟨200, 100, 3⟩ ⟨1, 2⟩ 2 100 ['t']
    (by decide) (by decide)).1

/-! ## Tracking payload encoder (`src/modules/tracking/utils/payload_encoder.py`)

`secrets.token_bytes(4)` and `int(time.time())` are modelled by passing the
drawn salt bytes and the wall-clock second as parameters.  Byte strings are
`List Nat` with every element `< 256`. -/

def b64UrlAlphabet : List Char :=
  "ABCDEFGHIJKLMNOPQRSTUVWXYZabcdefghijklmnopqrstuvwxyz0123456789-_".toList

def b64Char (n : Nat) : Char := b64UrlAlphabet.getD n '='

def b64Val (c : Char) : Option Nat := b64UrlAlphabet.findIdx? (fun x => x = c)

/-- `base64.urlsafe_b64encode(bytes).rstrip(b"=")`: encode 3-byte groups into
4 sextet characters, with 2 or 3 characters for a trailing group of 1 or 2
bytes (the `=` padding being stripped). -/
def b64EncodeNoPad : List Nat → List Char
  | [] => []
  | [b1] => [b64Char (b1 / 4), b64Char (b1 % 4 * 16)]
  | [b1, b2] =>
    [b64Char (b1 / 4), b64Char (b1 % 4 * 16 + b2 / 16), b64Char (b2 % 16 * 4)]
  | b1 :: b2 :: b3 :: rest =>
    b64Char (b1 / 4) :: b64Char (b1 % 4 * 16 + b2 / 16) ::
      b64Char (b2 % 16 * 4 + b3 / 64) :: b64Char (b3 % 64) ::
      b64EncodeNoPad rest

/-- `(4 - len(payload) % 4) % 4`, the number of `=` characters re-added
before decoding. -/
def b64PadLen (n : Nat) : Nat := (4 - n % 4) % 4

/-- `base64.urlsafe_b64decode` on a correctly padded string: 4 characters per
group, a final `xx==` group giving one byte, `xxx=` giving two. -/
def b64DecodePadded : List Char → Except String (List Nat)
  | [] => .ok []
  | c1 :: c2 :: c3 :: c4 :: rest =>
    match b64Val c1, b64Val c2 with
    | some v1, some v2 =>
      if c3 = '=' ∧ c4 = '=' ∧ rest = [] then .ok [v1 * 4 + v2 / 16]
      else
        match b64Val c3 with
        | some v3 =>
          if c4 = '=' ∧ rest = [] then
            .ok [v1 * 4 + v2 / 16, v2 % 16 * 16 + v3 / 4]
          else
            match b64Val c4 with
            | some v4 =>
              match b64DecodePadded rest with
              | .ok tail =>
                .ok ((v1 * 4 + v2 / 16) :: (v2 % 16 * 16 + v3 / 4) ::
                  (v3 % 4 * 64 + v4) :: tail)
              | .error e => .error e
            | none => .error "Invalid character"
        | none => .error "Invalid character"
    | _, _ => .error "Invalid character"
  | _ => .error "Invalid base64-encoded string: wrong padding"

/-- `n.to_bytes(w, byteorder='big')`. -/
def natToBytesFixed : Nat → Nat → List Nat
  | 0, _ => []
  | w + 1, n => natToBytesFixed w (n / 256) ++ [n % 256]

/-- `int.from_bytes(bytes, byteorder='big')`. -/
def fromBytesBE (l : List Nat) : Nat := l.foldl (fun a b => a * 256 + b) 0

/-- `n.bit_length()`, with structural fuel (`fuel ≥ n` is exact). -/
def bitLenAux : Nat → Nat → Nat
  | _, 0 => 0
  | 0, _ => 0
  | fuel + 1, n => bitLenAux fuel (n / 2) + 1

def pyBitLength (n : Nat) : Nat := bitLenAux n n

/-- `encode_link_id(link_id)` with the drawn salt and wall-clock second as
parameters: `salt(4) ++ (timestamp & 0xFFFFFFFF).to_bytes(4) ++ link_bytes`,
base64url-encoded without padding, rejected above 64 characters. -/
def encode_link_id (salt : List Nat) (timestamp : Nat) (link_id : Int) :
    Except String (List Char) :=
  if link_id < 0 then .error "link_id must be non-negative"
  else
    let n := link_id.toNat
    let timestamp_bytes := natToBytesFixed 4 (timestamp % 2 ^ 32)
    let link_bytes :=
      if n = 0 then [0] else natToBytesFixed ((pyBitLength n + 7) / 8) n
    let combined := salt ++ timestamp_bytes ++ link_bytes
    let encoded := b64EncodeNoPad combined
    if 64 < encoded.length then
      .error "Encoded payload exceeds 64 characters"
    else .ok encoded

/-- `decode_payload(payload)`: re-pad, base64url-decode, require at least
`SALT_BYTES + 4 = 8` bytes, skip them, read the rest big-endian. -/
def decode_payload (payload : List Char) : Except String Int :=
  if payload = [] then .error "Payload cannot be empty"
  else if 64 < payload.length then .error "Payload exceeds 64 characters"
  else
    match b64DecodePadded
        (payload ++ List.replicate (b64PadLen payload.length) '=') with
    | .error e => .error e
    | .ok combined =>
      if combined.length < 4 + 4 then .error "Payload too short"
      else .ok (Int.ofNat (fromBytesBE (combined.drop (4 + 4))))

theorem b64Val_b64Char : ∀ v, v < 64 → b64Val (b64Char v) = some v := by
  decide

theorem b64Char_ne_eq : ∀ v, v < 64 → (b64Char v = '=') = False := by
  decide

theorem b64_roundtrip : ∀ (bytes : List Nat), (∀ b ∈ bytes, b < 256) →
    b64DecodePadded (b64EncodeNoPad bytes ++
      List.replicate (b64PadLen (b64EncodeNoPad bytes).length) '=') = .ok bytes
  | [], _ => rfl
  | [b1], h => by
    have hb1 : b1 < 256 := h b1 (List.mem_singleton.mpr rfl)
    have h1 := b64Val_b64Char (b1 / 4) (by omega)
    have h2 := b64Val_b64Char (b1 % 4 * 16) (by omega)
    simp only [b64EncodeNoPad, List.length_cons, List.length_nil, b64PadLen]
    simp only [b64DecodePadded, List.cons_append, List.nil_append,
      List.replicate, h1, h2]
    simp only [and_self, and_true, if_pos, if_true, reduceIte]
    have e1 : b1 / 4 * 4 + b1 % 4 * 16 / 16 = b1 := by omega
    rw [e1]
  | [b1, b2], h => by
    have hb1 : b1 < 256 := h b1 (by simp)
    have hb2 : b2 < 256 := h b2 (by simp)
    have h1 := b64Val_b64Char (b1 / 4) (by omega)
    have h2 := b64Val_b64Char (b1 % 4 * 16 + b2 / 16) (by omega)
    have h3 := b64Val_b64Char (b2 % 16 * 4) (by omega)
    have h3ne := b64Char_ne_eq (b2 % 16 * 4) (by omega)
    simp only [b64EncodeNoPad, List.length_cons, List.length_nil, b64PadLen]
    simp only [b64DecodePadded, List.cons_append, List.nil_append,
      List.replicate, h1, h2, h3, h3ne]
    simp only [false_and, if_false, and_self, and_true, if_pos, if_true,
      reduceIte]
    have e1 : b1 / 4 * 4 + (b1 % 4 * 16 + b2 / 16) / 16 = b1 := by omega
    have e2 : (b1 % 4 * 16 + b2 / 16) % 16 * 16 + b2 % 16 * 4 / 4 = b2 := by
      omega
    rw [e1, e2]
  | b1 :: b2 :: b3 :: rest, h => by
    have hb1 : b1 < 256 := h b1 (by simp)
    have hb2 : b2 < 256 := h b2 (by simp)
    have hb3 : b3 < 256 := h b3 (by simp)
    have ih := b64_roundtrip rest (fun b hb => h b (by simp [hb]))
    have h1 := b64Val_b64Char (b1 / 4) (by omega)
    have h2 := b64Val_b64Char (b1 % 4 * 16 + b2 / 16) (by omega)
    have h3 := b64Val_b64Char (b2 % 16 * 4 + b3 / 64) (by omega)
    have h4 := b64Val_b64Char (b3 % 64) (by omega)
    have h3ne := b64Char_ne_eq (b2 % 16 * 4 + b3 / 64) (by omega)
    have h4ne := b64Char_ne_eq (b3 % 64) (by omega)
    have hlen : (b64EncodeNoPad (b1 :: b2 :: b3 :: rest)).length =
        4 + (b64EncodeNoPad rest).length := by
      simp only [b64EncodeNoPad, List.length_cons]
      omega
    have hpad : b64PadLen (b64EncodeNoPad (b1 :: b2 :: b3 :: rest)).length =
        b64PadLen (b64EncodeNoPad rest).length := by
      rw [hlen]
      simp only [b64PadLen, Nat.add_mod_left]
    rw [hpad]
    show b64DecodePadded (b64Char (b1 / 4) :: b64Char (b1 % 4 * 16 + b2 / 16) ::
      b64Char (b2 % 16 * 4 + b3 / 64) :: b64Char (b3 % 64) ::
      (b64EncodeNoPad rest ++ _)) = _
    simp only [b64DecodePadded, h1, h2, h3, h4, h3ne, h4ne, false_and,
      if_false, reduceIte, ih]
    have e1 : b1 / 4 * 4 + (b1 % 4 * 16 + b2 / 16) / 16 = b1 := by omega
    have e2 : (b1 % 4 * 16 + b2 / 16) % 16 * 16 +
        (b2 % 16 * 4 + b3 / 64) / 4 = b2 := by omega
    have e3 : (b2 % 16 * 4 + b3 / 64) % 4 * 64 + b3 % 64 = b3 := by omega
    rw [e1, e2, e3]

theorem length_natToBytesFixed : ∀ (w n : Nat),
    (natToBytesFixed w n).length = w
  | 0, _ => rfl
  | w + 1, n => by
    simp only [natToBytesFixed, List.length_append, List.length_cons,
      List.length_nil, length_natToBytesFixed w]

theorem mem_natToBytesFixed_lt : ∀ (w n : Nat) (b : Nat),
    b ∈ natToBytesFixed w n → b < 256
  | 0, _, b, hb => absurd hb (List.not_mem_nil b)
  | w + 1, n, b, hb => by
    simp only [natToBytesFixed, List.mem_append, List.mem_singleton] at hb
    rcases hb with hb | rfl
    · exact mem_natToBytesFixed_lt w (n / 256) b hb
    · exact Nat.mod_lt _ (by omega)

theorem fromBytes_natToBytesFixed : ∀ (w n : Nat),
    fromBytesBE (natToBytesFixed w n) = n % 256 ^ w
  | 0, n => by simp [natToBytesFixed, fromBytesBE, Nat.mod_one]
  | w + 1, n => by
    have ih := fromBytes_natToBytesFixed w (n / 256)
    simp only [natToBytesFixed, fromBytesBE] at ih ⊢
    rw [List.foldl_append]
    simp only [List.foldl_cons, List.foldl_nil]
    rw [ih, pow_succ, Nat.mul_comm (256 ^ w) 256, Nat.mod_mul]
    omega

theorem lt_two_pow_bitLenAux : ∀ (fuel n : Nat), n ≤ fuel →
    n < 2 ^ bitLenAux fuel n
  | fuel, 0, _ => by
    cases fuel <;> simp [bitLenAux]
  | 0, n + 1, h => by omega
  | fuel + 1, n + 1, h => by
    have ih := lt_two_pow_bitLenAux fuel ((n + 1) / 2) (by omega)
    simp only [bitLenAux, pow_succ]
    omega

theorem b64EncodeNoPad_ne_nil : ∀ (bytes : List Nat), bytes ≠ [] →
    b64EncodeNoPad bytes ≠ []
  | [], h => absurd rfl h
  | [_], _ => by simp [b64EncodeNoPad]
  | [_, _], _ => by simp [b64EncodeNoPad]
  | _ :: _ :: _ :: _, _ => by simp [b64EncodeNoPad]

theorem pyBitLength_pos (n : Nat) (h : 1 ≤ n) : 1 ≤ pyBitLength n := by
  rcases n with _ | m
  · omega
  · simp only [pyBitLength, bitLenAux]
    omega

/-- C5: whenever `encode_link_id` succeeds, `decode_payload` recovers the
link id (skipping the 8 salt/timestamp bytes and reading big-endian), the
payload is at most 64 characters, and two encodings of the same link id at
the same second with different salts give different payloads. -/
theorem payload_encoder_contract (salt : List Nat) (timestamp : Nat)
    (link_id : Int) (payload : List Char)
    (hsalt_len : salt.length = 4) (hsalt : ∀ b ∈ salt, b < 256)
    (henc : encode_link_id salt timestamp link_id = .ok payload) :
    decode_payload payload = .ok link_id ∧
    payload.length ≤ 64 ∧
    (∀ (salt' : List Nat) (payload' : List Char), salt'.length = 4 →
      (∀ b ∈ salt', b < 256) →
      encode_link_id salt' timestamp link_id = .ok payload' →
      salt ≠ salt' → payload ≠ payload') := by
  have main : ∀ (s : List Nat), s.length = 4 → (∀ b ∈ s, b < 256) →
      ∀ (p : List Char), encode_link_id s timestamp link_id = .ok p →
      p = b64EncodeNoPad (s ++ natToBytesFixed 4 (timestamp % 2 ^ 32) ++
        (if link_id.toNat = 0 then [0]
         else natToBytesFixed ((pyBitLength link_id.toNat + 7) / 8)
           link_id.toNat)) ∧
      p.length ≤ 64 ∧ decode_payload p = .ok link_id := by
    intro s hs4 hsb p hp
    simp only [encode_link_id] at hp
    by_cases hneg : link_id < 0
    · rw [if_pos hneg] at hp
      exact Except.noConfusion hp
    rw [if_neg hneg] at hp
    by_cases hbig : 64 < (b64EncodeNoPad (s ++
        natToBytesFixed 4 (timestamp % 2 ^ 32) ++
        (if link_id.toNat = 0 then [0]
         else natToBytesFixed ((pyBitLength link_id.toNat + 7) / 8)
           link_id.toNat))).length
    · rw [if_pos hbig] at hp
      exact Except.noConfusion hp
    rw [if_neg hbig] at hp
    injection hp with hp
    subst hp
    · set n := link_id.toNat with hn
      set tsb := natToBytesFixed 4 (timestamp % 2 ^ 32) with htsb
      set lb := (if n = 0 then [0]
        else natToBytesFixed ((pyBitLength n + 7) / 8) n) with hlb
      set combined := s ++ tsb ++ lb with hcombined
      have htsb_len : tsb.length = 4 := length_natToBytesFixed _ _
      have hlb_len : 1 ≤ lb.length := by
        rw [hlb]
        split_ifs with h0
        · simp
        · rw [length_natToBytesFixed]
          have := pyBitLength_pos n (by omega)
          omega
      have hbytes : ∀ b ∈ combined, b < 256 := by
        intro b hb
        rw [hcombined] at hb
        simp only [List.append_assoc, List.mem_append] at hb
        rcases hb with hb | hb | hb
        · exact hsb b hb
        · exact mem_natToBytesFixed_lt _ _ b hb
        · rw [hlb] at hb
          split_ifs at hb with h0
          · simp only [List.mem_singleton] at hb
            omega
          · exact mem_natToBytesFixed_lt _ _ b hb
      have hcomb_ne : combined ≠ [] := by
        rw [hcombined]
        intro h
        have := congrArg List.length h
        simp only [List.length_append, List.length_nil, hs4, htsb_len] at this
        omega
      have hpne : b64EncodeNoPad combined ≠ [] :=
        b64EncodeNoPad_ne_nil combined hcomb_ne
      have hrt := b64_roundtrip combined hbytes
      refine ⟨rfl, by omega, ?_⟩
      have hcomb_len : ¬ combined.length < 4 + 4 := by
        rw [hcombined]
        simp only [List.length_append, hs4, htsb_len]
        omega
      rw [decode_payload, if_neg hpne, if_neg hbig, hrt]
      show (if combined.length < 4 + 4 then
          (Except.error "Payload too short" : Except String Int)
        else Except.ok (Int.ofNat (fromBytesBE (combined.drop (4 + 4))))) =
        Except.ok link_id
      rw [if_neg hcomb_len]
      have hdrop : combined.drop (4 + 4) = lb := by
        rw [hcombined]
        have h8 : 4 + 4 = (s ++ tsb).length := by
          simp only [List.length_append, hs4, htsb_len]
        rw [h8, List.drop_left]
      rw [hdrop]
      have hfb : fromBytesBE lb = n := by
        rw [hlb]
        split_ifs with h0
        · simp [fromBytesBE, h0]
        · rw [fromBytes_natToBytesFixed]
          have hbl := lt_two_pow_bitLenAux n n (le_refl n)
          have hble : pyBitLength n ≤ 8 * ((pyBitLength n + 7) / 8) := by
            omega
          have hpow : (2 : Nat) ^ pyBitLength n ≤
              256 ^ ((pyBitLength n + 7) / 8) := by
            calc (2 : Nat) ^ pyBitLength n
                ≤ 2 ^ (8 * ((pyBitLength n + 7) / 8)) :=
                  Nat.pow_le_pow_right (by omega) hble
              _ = 256 ^ ((pyBitLength n + 7) / 8) := by
                  rw [Nat.pow_mul]
          exact Nat.mod_eq_of_lt (by
            have : n < 2 ^ pyBitLength n := hbl
            omega)
      rw [hfb]
      have hofn : Int.ofNat n = link_id := by
        rw [hn]
        show ((link_id.toNat : ℤ)) = link_id
        omega
      rw [hofn]
  obtain ⟨hpay, hlen, hdec⟩ := main salt hsalt_len hsalt payload henc
  refine ⟨hdec, hlen, ?_⟩
  intro salt' payload' hs4' hsb' henc' hne heq
  obtain ⟨hpay', _, _⟩ := main salt' hs4' hsb' payload' henc'
  apply hne
  have hcombeq :
      (Except.ok (salt ++ natToBytesFixed 4 (timestamp % 2 ^ 32) ++
        (if link_id.toNat = 0 then [0]
         else natToBytesFixed ((pyBitLength link_id.toNat + 7) / 8)
           link_id.toNat)) : Except String (List Nat)) =
      Except.ok (salt' ++ natToBytesFixed 4 (timestamp % 2 ^ 32) ++
        (if link_id.toNat = 0 then [0]
         else natToBytesFixed ((pyBitLength link_id.toNat + 7) / 8)
           link_id.toNat)) := by
    have hb : ∀ b ∈ salt ++ natToBytesFixed 4 (timestamp % 2 ^ 32) ++
        (if link_id.toNat = 0 then [0]
         else natToBytesFixed ((pyBitLength link_id.toNat + 7) / 8)
           link_id.toNat), b < 256 := by
      intro b hb
      simp only [List.append_assoc, List.mem_append] at hb
      rcases hb with hb | hb | hb
      · exact hsalt b hb
      · exact mem_natToBytesFixed_lt _ _ b hb
      · split_ifs at hb with h0
        · simp only [List.mem_singleton] at hb
          omega
        · exact mem_natToBytesFixed_lt _ _ b hb
    have hb' : ∀ b ∈ salt' ++ natToBytesFixed 4 (timestamp % 2 ^ 32) ++
        (if link_id.toNat = 0 then [0]
         else natToBytesFixed ((pyBitLength link_id.toNat + 7) / 8)
           link_id.toNat), b < 256 := by
      intro b hb
      simp only [List.append_assoc, List.mem_append] at hb
      rcases hb with hb | hb | hb
      · exact hsb' b hb
      · exact mem_natToBytesFixed_lt _ _ b hb
      · split_ifs at hb with h0
        · simp only [List.mem_singleton] at hb
          omega
        · exact mem_natToBytesFixed_lt _ _ b hb
    rw [← b64_roundtrip _ hb, ← b64_roundtrip _ hb']
    rw [← hpay, ← hpay', heq]
  injection hcombeq with hcombeq
  have houter := List.append_inj hcombeq
    (by simp [List.length_append, hsalt_len, hs4'])
  have hinner := List.append_inj houter.1 (by rw [hsalt_len, hs4'])
  exact hinner.1

/-- Witness for C5: the payload for salt `[1,2,3,4]`, second `0`,
link id `1`. -/
theorem payload_encoder_contract_witness :
    decode_payload "AQIDBAAAAAAB".toList = .ok 1 ∧
    ("AQIDBAAAAAAB".toList).length ≤ 64 := by
  have h := payload_encoder_contract [1, 2, 3, 4] 0 1 "AQIDBAAAAAAB".toList
    (by decide) (by decide) rfl
  exact ⟨h.1, h.2.1⟩

/-! ## Emoji job service (`src/modules/images/services/emoji_pack.py`) and
job cache (`src/modules/images/infrastructure/storage.py`)

`process` is modelled as the function from an environment (the decoded
source image, the outcome of the remote `create_or_extend` call, and the
success of each cleanup syscall) to its returned/raised value together with
the ordered trace of effects it performs.  The `try/except: pass` around
each cleanup step is modelled by recording the step with its success flag
and continuing unconditionally. -/

/-- `datetime`: a wall-clock instant with microsecond precision. -/
structure PyDateTime where
  year : Nat
  month : Nat
  day : Nat
  hour : Nat
  minute : Nat
  second : Nat
  microsecond : Nat
deriving DecidableEq, Repr

/-- Ranges `datetime` guarantees for its fields. -/
def PyDateTime.valid (t : PyDateTime) : Prop :=
  1 ≤ t.year ∧ t.year ≤ 9999 ∧ 1 ≤ t.month ∧ t.month ≤ 12 ∧
  1 ≤ t.day ∧ t.day ≤ 31 ∧ t.hour ≤ 23 ∧ t.minute ≤ 59 ∧
  t.second ≤ 59 ∧ t.microsecond ≤ 999999

instance (t : PyDateTime) : Decidable t.valid := by
  unfold PyDateTime.valid
  infer_instance

/-- A `pathlib.Path` of shape `dir/stem + ext`. -/
structure PyPath where
  dir : List Char
  stem : List Char
  ext : List Char
deriving DecidableEq, Repr

def PyPath.full (p : PyPath) : List Char := p.dir ++ '/' :: (p.stem ++ p.ext)

/-- `EmojiPackRequest`. -/
structure EmojiPackRequestM where
  user_id : Int
  chat_id : Int
  file_path : PyPath
  image_hash : List Char
  grid : EmojiGridOption
  padding : Int
  file_unique_id : List Char
  requested_at : PyDateTime
deriving DecidableEq, Repr

/-- `EmojiPackResult` (the fields the service persists). -/
structure EmojiPackResultM where
  short_name : List Char
  link : List Char
deriving DecidableEq, Repr

structure EmojiJobOutcomeM where
  request : EmojiPackRequestM
  result : EmojiPackResultM
deriving DecidableEq, Repr

/-- One observable effect of `EmojiPackService.process`. -/
inductive ServiceAction where
  | readFile (path : List Char)
  | sliceTiles
  | getCachedJob
  | createOrExtend
  | unlinkFile (path : List Char) (ok : Bool)
  | removeTree (dir : List Char) (ok : Bool)
  | saveJobOutcome
deriving DecidableEq, Repr

/-- Environment of one `process` run: decoded source bytes, the remote
call's outcome, and whether each cleanup syscall succeeds. -/
structure ProcessEnv where
  sourceImage : PILImage
  telegramResult : Except String EmojiPackResultM
  unlinkOk : List Char → Bool
  rmtreeOk : Bool

/-- `EmojiPackService.process(request)`: read the source, slice tiles into
the job directory (`file_path.parent`, prefix `file_path.stem`), call
`create_or_extend`; in the `finally` block unlink every tile and the source
and remove the job directory when it differs from the scratch root, each
step's own failure swallowed; persist the outcome only on success, and
re-raise the original failure otherwise. -/
def EmojiPackService.process (temp_dir : List Char) (tile_size : Nat)
    (env : ProcessEnv) (request : EmojiPackRequestM) :
    Except String EmojiJobOutcomeM × List ServiceAction :=
  let job_dir := request.file_path.dir
  let stem := request.file_path.stem
  let tiles := slice_into_tiles env.sourceImage request.grid request.padding
    tile_size stem
  let tile_paths := tiles.map (fun t => job_dir ++ '/' :: t.name)
  let cleanup :=
    tile_paths.map (fun p => ServiceAction.unlinkFile p (env.unlinkOk p)) ++
    [ServiceAction.unlinkFile request.file_path.full
      (env.unlinkOk request.file_path.full)] ++
    (if job_dir ≠ temp_dir then
      [ServiceAction.removeTree job_dir env.rmtreeOk] else [])
  match env.telegramResult with
  | .error e =>
    (.error e,
      [.readFile request.file_path.full, .sliceTiles, .createOrExtend] ++
        cleanup)
  | .ok result =>
    (.ok ⟨request, result⟩,
      [.readFile request.file_path.full, .sliceTiles, .createOrExtend] ++
        cleanup ++ [.saveJobOutcome])

/-- `EmojiGridOption.encode`: `f"{rows}x{cols}"`. -/
def gridEncode (g : EmojiGridOption) : List Char :=
  natStr g.rows ++ 'x' :: natStr g.cols

/-- The `emoji_jobs` primary key `(user_id, image_hash, grid, padding)`. -/
def jobKey (r : EmojiPackRequestM) : Int × List Char × List Char × Int :=
  (r.user_id, r.image_hash, gridEncode r.grid, r.padding)

/-- What one `emoji_jobs` row stores of the result. -/
structure EmojiJobRow where
  short_name : List Char
  link : List Char
deriving DecidableEq, Repr

/-- Row deletion by primary key (the "REPLACE" half of
`INSERT OR REPLACE`). -/
def eraseJobKey :
    List ((Int × List Char × List Char × Int) × EmojiJobRow) →
    (Int × List Char × List Char × Int) →
    List ((Int × List Char × List Char × Int) × EmojiJobRow)
  | [], _ => []
  | kv :: rest, k =>
    if kv.1 = k then eraseJobKey rest k else kv :: eraseJobKey rest k

/-- `INSERT OR REPLACE INTO emoji_jobs`: the keyed-table semantics of
`save_job_outcome` — the new row replaces any row with the same primary key
and leaves every other key untouched. -/
def save_job_outcome
    (db : List ((Int × List Char × List Char × Int) × EmojiJobRow))
    (o : EmojiJobOutcomeM) :
    List ((Int × List Char × List Char × Int) × EmojiJobRow) :=
  (jobKey o.request, ⟨o.result.short_name, o.result.link⟩) ::
    eraseJobKey db (jobKey o.request)

/-- Row lookup by primary key. -/
def lookupJob :
    List ((Int × List Char × List Char × Int) × EmojiJobRow) →
    (Int × List Char × List Char × Int) → Option EmojiJobRow
  | [], _ => none
  | kv :: rest, k => if kv.1 = k then some kv.2 else lookupJob rest k

theorem lookupJob_eraseJobKey_ne
    (db : List ((Int × List Char × List Char × Int) × EmojiJobRow))
    (key k : Int × List Char × List Char × Int) (hk : k ≠ key) :
    lookupJob (eraseJobKey db key) k = lookupJob db k := by
  induction db with
  | nil => rfl
  | cons kv rest ih =>
    rw [eraseJobKey]
    by_cases hkv : kv.1 = key
    · rw [if_pos hkv, ih, lookupJob,
        if_neg (by rw [hkv]; exact fun h => hk h.symm)]
    · rw [if_neg hkv, lookupJob, lookupJob, ih]

/-- C7: `process` never consults `get_cached_job` and always performs the
remote `create_or_extend`; persisting a `JobOutcome` overwrites the row with
the same `(user_id, image_hash, grid, padding)` key and no other. -/
theorem process_always_remote_and_overwrites (temp_dir : List Char)
    (tile_size : Nat) (env : ProcessEnv) (request : EmojiPackRequestM)
    (db : List ((Int × List Char × List Char × Int) × EmojiJobRow))
    (o : EmojiJobOutcomeM) :
    ServiceAction.getCachedJob ∉
      (EmojiPackService.process temp_dir tile_size env request).2 ∧
    ServiceAction.createOrExtend ∈
      (EmojiPackService.process temp_dir tile_size env request).2 ∧
    ((env.telegramResult = .ok o.result ∧ request = o.request) →
      (EmojiPackService.process temp_dir tile_size env request).1 =
        .ok o) ∧
    lookupJob (save_job_outcome db o) (jobKey o.request) =
      some ⟨o.result.short_name, o.result.link⟩ ∧
    (∀ k, k ≠ jobKey o.request →
      lookupJob (save_job_outcome db o) k = lookupJob db k) := by
  refine ⟨?_, ?_, ?_, ?_, ?_⟩
  · rw [EmojiPackService.process]
    cases env.telegramResult with
    | error e => split_ifs <;> simp
    | ok r => split_ifs <;> simp
  · rw [EmojiPackService.process]
    cases env.telegramResult with
    | error e => simp
    | ok r => simp
  · rintro ⟨htel, hreq⟩
    rw [EmojiPackService.process, htel]
    simp only
    rw [hreq]
  · rw [save_job_outcome, lookupJob, if_pos rfl]
  · intro k hk
    rw [save_job_outcome, lookupJob, if_neg (fun h => hk h.symm)]
    exact lookupJob_eraseJobKey_ne db (jobKey o.request) k hk

/-- Witness for C7's conditional parts at a concrete environment. -/
theorem process_always_remote_and_overwrites_witness :
    lookupJob (save_job_outcome []
      ⟨⟨7, 8, ⟨['d'], ['s'], []⟩, ['h'], ⟨1, 1⟩, 0, ['u'],
        ⟨2026, 1, 1, 0, 0, 0, 0⟩⟩, ⟨['n'], ['l']⟩⟩)
      (jobKey ⟨7, 8, ⟨['d'], ['s'], []⟩, ['h'], ⟨1, 1⟩, 0, ['u'],
        ⟨2026, 1, 1, 0, 0, 0, 0⟩⟩) = some ⟨['n'], ['l']⟩ :=
  (process_always_remote_and_overwrites [] 100
    ⟨⟨1, 1, 3⟩, .error "e", fun _ => true, true⟩
    ⟨7, 8, ⟨['d'], ['s'], []⟩, ['h'], ⟨1, 1⟩, 0, ['u'],
      ⟨2026, 1, 1, 0, 0, 0, 0⟩⟩ []
    ⟨⟨7, 8, ⟨['d'], ['s'], []⟩, ['h'], ⟨1, 1⟩, 0, ['u'],
      ⟨2026, 1, 1, 0, 0, 0, 0⟩⟩, ⟨['n'], ['l']⟩⟩).2.2.2.1

/-- C9: when `create_or_extend` fails, the original failure is the value of
`process` whatever the cleanup syscalls do, and the trace records — before
control returns — an unlink of every tile file and of the source file plus a
recursive removal of the job directory when it differs from the scratch
root; no outcome is persisted on the failure path. -/
theorem process_failure_cleanup (temp_dir : List Char) (tile_size : Nat)
    (env : ProcessEnv) (request : EmojiPackRequestM) (e : String)
    (htel : env.telegramResult = .error e) :
    (EmojiPackService.process temp_dir tile_size env request).1 =
      .error e ∧
    (∀ t ∈ slice_into_tiles env.sourceImage request.grid request.padding
        tile_size request.file_path.stem,
      ServiceAction.unlinkFile (request.file_path.dir ++ '/' :: t.name)
          (env.unlinkOk (request.file_path.dir ++ '/' :: t.name)) ∈
        (EmojiPackService.process temp_dir tile_size env request).2) ∧
    ServiceAction.unlinkFile request.file_path.full
        (env.unlinkOk request.file_path.full) ∈
      (EmojiPackService.process temp_dir tile_size env request).2 ∧
    (request.file_path.dir ≠ temp_dir →
      ServiceAction.removeTree request.file_path.dir env.rmtreeOk ∈
        (EmojiPackService.process temp_dir tile_size env request).2) ∧
    ServiceAction.saveJobOutcome ∉
      (EmojiPackService.process temp_dir tile_size env request).2 := by
  refine ⟨?_, ?_, ?_, ?_, ?_⟩
  · rw [EmojiPackService.process, htel]
  · intro t ht
    rw [EmojiPackService.process, htel]
    refine List.mem_append_right _ ?_
    refine List.mem_append_left _ ?_
    refine List.mem_append_left _ ?_
    exact List.mem_map_of_mem _ (List.mem_map_of_mem _ ht)
  · rw [EmojiPackService.process, htel]
    simp
  · intro hdir
    rw [EmojiPackService.process, htel]
    simp only [List.mem_append, List.mem_cons, List.mem_singleton]
    rw [if_pos hdir]
    simp
  · rw [EmojiPackService.process, htel]
    split_ifs <;> simp

/-- Witness for C9 at a concrete failing environment. -/
theorem process_failure_cleanup_witness :
    (EmojiPackService.process [] 100
      ⟨⟨1, 1, 3⟩, .error "boom", fun _ => true, true⟩
      ⟨7, 8, ⟨['d'], ['s'], []⟩, ['h'], ⟨1, 1⟩, 0, ['u'],
        ⟨2026, 1, 1, 0, 0, 0, 0⟩⟩).1 = .error "boom" :=
  (process_failure_cleanup [] 100
    ⟨⟨1, 1, 3⟩, .error "boom", fun _ => true, true⟩
    ⟨7, 8, ⟨['d'], ['s'], []⟩, ['h'], ⟨1, 1⟩, 0, ['u'],
      ⟨2026, 1, 1, 0, 0, 0, 0⟩⟩ "boom" rfl).1

/-! ## Sticker short names
(`TelegramEmojiClient._build_short_name` in
`src/modules/images/infrastructure/telegram_emoji.py`)

Strings are `List Char`; `str.lower()` is modelled on ASCII (`A`–`Z` shifted
by 32), which covers every character class the regexes keep. -/

theorem charOfNat_toNat (m : Nat) (h : m < 55296) :
    (Char.ofNat m).toNat = m := by
  unfold Char.ofNat
  rw [dif_pos (Or.inl h)]
  rfl

/-- ASCII `str.lower()` on one character. -/
def asciiLower (c : Char) : Char :=
  if 65 ≤ c.toNat ∧ c.toNat ≤ 90 then Char.ofNat (c.toNat + 32) else c

def lowerStr (s : List Char) : List Char := s.map asciiLower

/-- The class kept by `re.sub(r"[^a-z0-9]", "", ·)`. -/
def isLowerAlnumChar (c : Char) : Bool :=
  (97 ≤ c.toNat && c.toNat ≤ 122) || (48 ≤ c.toNat && c.toNat ≤ 57)

/-- The class kept by `re.sub(r"[^a-z0-9_]", "_", ·)`. -/
def isShortNameChar (c : Char) : Bool := isLowerAlnumChar c || c.toNat = 95

/-- Telegram bot usernames consist of `[A-Za-z0-9_]`. -/
def isTelegramNameChar (c : Char) : Bool :=
  (65 ≤ c.toNat && c.toNat ≤ 90) || (97 ≤ c.toNat && c.toNat ≤ 122) ||
    (48 ≤ c.toNat && c.toNat ≤ 57) || c.toNat = 95

/-- One character of `re.sub(r"[^a-z0-9_]", "_", base)`. -/
def sanitizeChar (c : Char) : Char := if isShortNameChar c then c else '_'

/-- `str.rstrip("_")`. -/
def rstripUnderscore (l : List Char) : List Char :=
  (l.reverse.dropWhile (fun c => c = '_')).reverse

/-- Python `str(i)` for an `int`. -/
def intStr (i : Int) : List Char :=
  if i < 0 then '-' :: natStr (-i).toNat else natStr i.toNat

/-- Decimal digits of `n`, most significant first (empty for 0). -/
def decimalChars (n : Nat) : List Char := (natDigitsAux n n).reverse

/-- A zero-padded decimal field of width `w`, as `strftime` renders
`%Y %m %d %H %M %S %f`. -/
def padNum (w n : Nat) : List Char :=
  List.replicate (w - (decimalChars n).length) '0' ++ decimalChars n

/-- `requested_at.strftime("%Y%m%d%H%M%S%f")`. -/
def strftimeCompact (t : PyDateTime) : List Char :=
  padNum 4 t.year ++ padNum 2 t.month ++ padNum 2 t.day ++ padNum 2 t.hour ++
    padNum 2 t.minute ++ padNum 2 t.second ++ padNum 6 t.microsecond

/-- `suffix = f"_by_{username}".lower()`. -/
def shortNameSuffix (username : List Char) : List Char :=
  lowerStr ("_by_".toList ++ username)

/-- `entropy = file_marker or unique_marker or "file"` where the markers
keep the first six `[a-z0-9]` characters of the lowercased stem and file id. -/
def shortNameEntropy (req : EmojiPackRequestM) : List Char :=
  let file_marker :=
    ((lowerStr req.file_path.stem).filter isLowerAlnumChar).take 6
  let unique_marker :=
    ((lowerStr req.file_unique_id).filter isLowerAlnumChar).take 6
  if file_marker ≠ [] then file_marker
  else if unique_marker ≠ [] then unique_marker
  else "file".toList

/-- The tail of the base after the timestamp:
`f"_{rows}x{cols}_p{padding}_{entropy}"`. -/
def shortNameTail (req : EmojiPackRequestM) : List Char :=
  '_' :: natStr req.grid.rows ++ 'x' :: natStr req.grid.cols ++
    '_' :: 'p' :: intStr req.padding ++ '_' :: shortNameEntropy req

/-- `sanitized = re.sub(r"[^a-z0-9_]", "_", base)` for
`base = f"emoji_{user_id}_{timestamp}_{rows}x{cols}_p{padding}_{entropy}".lower()`. -/
def shortNameSanitized (req : EmojiPackRequestM) : List Char :=
  (lowerStr (("emoji_".toList ++ intStr req.user_id ++ ['_']) ++
    strftimeCompact req.requested_at ++ shortNameTail req)).map sanitizeChar

/-- `TelegramEmojiClient._build_short_name(request, username)`: raise when
the suffix alone fills the 64-character budget, else truncate the sanitized
base to the leftover budget, right-strip underscores, fall back to
`"emoji"`, and append the suffix. -/
def build_short_name (req : EmojiPackRequestM) (username : List Char) :
    Except String (List Char) :=
  if 64 ≤ (shortNameSuffix username).length then
    .error "Bot username is too long for sticker short name requirements"
  else
    let max_base_len := 64 - (shortNameSuffix username).length
    let trimmed :=
      rstripUnderscore ((shortNameSanitized req).take max_base_len)
    .ok ((if trimmed = [] then "emoji".toList else trimmed) ++
      shortNameSuffix username)

theorem foldr_natDigitsAux : ∀ (fuel n : Nat), n ≤ fuel →
    (natDigitsAux fuel n).foldr (fun c a => 10 * a + (c.toNat - 48)) 0 = n
  | fuel, 0, _ => by cases fuel <;> simp [natDigitsAux]
  | 0, n + 1, h => by omega
  | fuel + 1, n + 1, h => by
    have ih := foldr_natDigitsAux fuel ((n + 1) / 10) (by omega)
    simp only [natDigitsAux, List.foldr_cons, ih]
    rw [charOfNat_toNat _ (by omega)]
    omega

def digitsValMSB (l : List Char) : Nat :=
  l.foldl (fun a c => 10 * a + (c.toNat - 48)) 0

theorem digitsValMSB_decimalChars (n : Nat) :
    digitsValMSB (decimalChars n) = n := by
  rw [digitsValMSB, decimalChars, List.foldl_reverse]
  exact foldr_natDigitsAux n n (le_refl n)

theorem digitsValMSB_replicate_zero (k : Nat) (s : List Char) :
    digitsValMSB (List.replicate k '0' ++ s) = digitsValMSB s := by
  induction k with
  | zero => rfl
  | succ m ih =>
    rw [List.replicate_succ, List.cons_append, digitsValMSB, List.foldl_cons]
    exact ih

theorem padNum_inj (w a b : Nat) (h : padNum w a = padNum w b) : a = b := by
  have h' := congrArg digitsValMSB h
  rw [padNum, padNum, digitsValMSB_replicate_zero, digitsValMSB_replicate_zero,
    digitsValMSB_decimalChars, digitsValMSB_decimalChars] at h'
  exact h'

theorem length_natDigitsAux_le : ∀ (fuel n k : Nat), n ≤ fuel →
    n < 10 ^ k → (natDigitsAux fuel n).length ≤ k
  | fuel, 0, k, _, _ => by cases fuel <;> simp [natDigitsAux]
  | 0, n + 1, k, h, _ => by omega
  | fuel + 1, n + 1, k, h, hk => by
    have hk1 : 1 ≤ k := by
      by_contra hk0
      have : k = 0 := by omega
      rw [this, pow_zero] at hk
      omega
    have hdiv : (n + 1) / 10 < 10 ^ (k - 1) := by
      rw [Nat.div_lt_iff_lt_mul (by omega)]
      calc n + 1 < 10 ^ k := hk
        _ = 10 ^ (k - 1) * 10 := by
            rw [← pow_succ]
            congr 1
            omega
    have ih := length_natDigitsAux_le fuel ((n + 1) / 10) (k - 1)
      (by omega) hdiv
    simp only [natDigitsAux, List.length_cons]
    omega

theorem length_padNum {w n : Nat} (h : n < 10 ^ w) :
    (padNum w n).length = w := by
  have hd : (decimalChars n).length ≤ w := by
    rw [decimalChars, List.length_reverse]
    exact length_natDigitsAux_le n n w (le_refl n) h
  rw [padNum, List.length_append, List.length_replicate]
  omega

theorem length_padNum_pos (w n : Nat) (hw : 1 ≤ w) :
    1 ≤ (padNum w n).length := by
  rw [padNum, List.length_append, List.length_replicate]
  omega

theorem mem_natDigitsAux_range : ∀ (fuel n : Nat) (c : Char),
    c ∈ natDigitsAux fuel n → 48 ≤ c.toNat ∧ c.toNat ≤ 57
  | fuel, 0, c, hc => by cases fuel <;> simp [natDigitsAux] at hc
  | 0, n + 1, c, hc => by simp [natDigitsAux] at hc
  | fuel + 1, n + 1, c, hc => by
    simp only [natDigitsAux, List.mem_cons] at hc
    rcases hc with rfl | hc
    · rw [charOfNat_toNat _ (by omega)]
      omega
    · exact mem_natDigitsAux_range fuel ((n + 1) / 10) c hc

theorem mem_padNum_range {w n : Nat} {c : Char} (hc : c ∈ padNum w n) :
    48 ≤ c.toNat ∧ c.toNat ≤ 57 := by
  rw [padNum] at hc
  rcases List.mem_append.mp hc with hc | hc
  · rw [List.eq_of_mem_replicate hc]
    exact ⟨by decide, by decide⟩
  · rw [decimalChars, List.mem_reverse] at hc
    exact mem_natDigitsAux_range n n c hc

theorem mem_strftime_range {t : PyDateTime} {c : Char}
    (hc : c ∈ strftimeCompact t) : 48 ≤ c.toNat ∧ c.toNat ≤ 57 := by
  rw [strftimeCompact] at hc
  simp only [List.append_assoc, List.mem_append] at hc
  rcases hc with hc | hc | hc | hc | hc | hc | hc <;>
    exact mem_padNum_range hc

theorem length_strftime {t : PyDateTime} (h : t.valid) :
    (strftimeCompact t).length = 20 := by
  obtain ⟨h1, h2, h3, h4, h5, h6, h7, h8, h9, h10⟩ := h
  rw [strftimeCompact]
  simp only [List.length_append]
  rw [length_padNum (by norm_num; omega), length_padNum (by norm_num; omega),
    length_padNum (by norm_num; omega), length_padNum (by norm_num; omega),
    length_padNum (by norm_num; omega), length_padNum (by norm_num; omega),
    length_padNum (by norm_num; omega)]

theorem strftimeCompact_inj {t t' : PyDateTime} (ht : t.valid)
    (ht' : t'.valid) (h : strftimeCompact t = strftimeCompact t') : t = t' := by
  obtain ⟨a1, a2, a3, a4, a5, a6, a7, a8, a9, a10⟩ := ht
  obtain ⟨b1, b2, b3, b4, b5, b6, b7, b8, b9, b10⟩ := ht'
  rw [strftimeCompact, strftimeCompact] at h
  simp only [List.append_assoc] at h
  have hy := List.append_inj h
    (by rw [length_padNum (by norm_num; omega), length_padNum (by norm_num; omega)])
  have hmo := List.append_inj hy.2
    (by rw [length_padNum (by norm_num; omega), length_padNum (by norm_num; omega)])
  have hd := List.append_inj hmo.2
    (by rw [length_padNum (by norm_num; omega), length_padNum (by norm_num; omega)])
  have hh := List.append_inj hd.2
    (by rw [length_padNum (by norm_num; omega), length_padNum (by norm_num; omega)])
  have hmi := List.append_inj hh.2
    (by rw [length_padNum (by norm_num; omega), length_padNum (by norm_num; omega)])
  have hs := List.append_inj hmi.2
    (by rw [length_padNum (by norm_num; omega), length_padNum (by norm_num; omega)])
  cases t
  cases t'
  simp only [PyDateTime.mk.injEq]
  exact ⟨padNum_inj _ _ _ hy.1, padNum_inj _ _ _ hmo.1, padNum_inj _ _ _ hd.1,
    padNum_inj _ _ _ hh.1, padNum_inj _ _ _ hmi.1, padNum_inj _ _ _ hs.1,
    padNum_inj _ _ _ hs.2⟩

theorem map_eq_self_of {α : Type} (f : α → α) :
    ∀ (l : List α), (∀ c ∈ l, f c = c) → l.map f = l
  | [], _ => rfl
  | a :: l, h => by
    rw [List.map_cons, h a (List.mem_cons_self _ _),
      map_eq_self_of f l (fun c hc => h c (List.mem_cons_of_mem _ hc))]

theorem asciiLower_digit {c : Char} (h : 48 ≤ c.toNat ∧ c.toNat ≤ 57) :
    asciiLower c = c := by
  rw [asciiLower, if_neg (by omega)]

theorem sanitizeChar_digit {c : Char} (h : 48 ≤ c.toNat ∧ c.toNat ≤ 57) :
    sanitizeChar c = c := by
  rw [sanitizeChar, if_pos]
  simp only [isShortNameChar, isLowerAlnumChar, Bool.or_eq_true,
    Bool.and_eq_true, decide_eq_true_eq]
  omega

theorem isShortNameChar_sanitizeChar (c : Char) :
    isShortNameChar (sanitizeChar c) = true := by
  rw [sanitizeChar]
  by_cases h : isShortNameChar c = true
  · rw [if_pos h]
    exact h
  · rw [if_neg h]
    decide

theorem digit_ne_underscore {c : Char} (h : c.toNat ≤ 57) : ¬(c = '_') := by
  intro hc
  rw [hc] at h
  exact absurd h (by decide)

theorem rstripUnderscore_append (x y : List Char) :
    rstripUnderscore (x ++ y) =
      if rstripUnderscore y = [] then rstripUnderscore x
      else x ++ rstripUnderscore y := by
  have hiff : rstripUnderscore y = [] ↔
      y.reverse.dropWhile (fun c => c = '_') = [] := by
    rw [rstripUnderscore, List.reverse_eq_nil_iff]
  rw [rstripUnderscore, List.reverse_append, List.dropWhile_append]
  by_cases hy : y.reverse.dropWhile (fun c => c = '_') = []
  · rw [if_pos (by simp [hy]), if_pos (hiff.mpr hy)]
    rfl
  · rw [if_neg (by simp [hy]), if_neg (fun h => hy (hiff.mp h)),
      List.reverse_append, List.reverse_reverse]
    rfl

theorem rstripUnderscore_snoc {x : List Char} {c : Char} (hc : ¬(c = '_')) :
    rstripUnderscore (x ++ [c]) = x ++ [c] := by
  rw [rstripUnderscore, List.reverse_append]
  show ((c :: x.reverse).dropWhile (fun c => c = '_')).reverse = x ++ [c]
  rw [List.dropWhile_cons, if_neg (by simpa using hc), List.reverse_cons,
    List.reverse_reverse]

theorem rstripUnderscore_cons_ne_nil {c : Char} (l : List Char)
    (hc : ¬(c = '_')) : rstripUnderscore (c :: l) ≠ [] := by
  have h := rstripUnderscore_append [c] l
  rw [List.singleton_append] at h
  rw [h]
  have hc1 : rstripUnderscore [c] = [c] := by
    have := rstripUnderscore_snoc (x := []) hc
    simpa using this
  split_ifs with h'
  · rw [hc1]
    simp
  · simp

theorem length_rstripUnderscore_le (l : List Char) :
    (rstripUnderscore l).length ≤ l.length := by
  rw [rstripUnderscore, List.length_reverse]
  calc (l.reverse.dropWhile (fun c => c = '_')).length
      ≤ l.reverse.length := (List.dropWhile_sublist _).length_le
    _ = l.length := List.length_reverse l

theorem mem_rstripUnderscore {l : List Char} {c : Char}
    (h : c ∈ rstripUnderscore l) : c ∈ l := by
  rw [rstripUnderscore, List.mem_reverse] at h
  rw [← List.mem_reverse]
  exact (List.dropWhile_sublist _).subset h

theorem rstripUnderscore_append_padNum (x : List Char) (w n : Nat)
    (hw : 1 ≤ w) :
    rstripUnderscore (x ++ padNum w n) = x ++ padNum w n := by
  have hne : padNum w n ≠ [] := by
    have := length_padNum_pos w n hw
    intro h
    rw [h] at this
    simp at this
  have hmem : (padNum w n).getLast hne ∈ padNum w n := List.getLast_mem hne
  have hdig := mem_padNum_range hmem
  have hdecomp : padNum w n = (padNum w n).dropLast ++ [(padNum w n).getLast hne] :=
    (List.dropLast_append_getLast hne).symm
  calc rstripUnderscore (x ++ padNum w n)
      = rstripUnderscore ((x ++ (padNum w n).dropLast) ++
          [(padNum w n).getLast hne]) := by rw [List.append_assoc, ← hdecomp]
    _ = (x ++ (padNum w n).dropLast) ++ [(padNum w n).getLast hne] :=
        rstripUnderscore_snoc (digit_ne_underscore hdig.2)
    _ = x ++ padNum w n := by rw [List.append_assoc, ← hdecomp]

theorem isShortNameChar_asciiLower_of_telegram {c : Char}
    (h : isTelegramNameChar c = true) :
    isShortNameChar (asciiLower c) = true := by
  simp only [isTelegramNameChar, Bool.or_eq_true, Bool.and_eq_true,
    decide_eq_true_eq] at h
  rw [asciiLower]
  by_cases hc : 65 ≤ c.toNat ∧ c.toNat ≤ 90
  · rw [if_pos hc]
    simp only [isShortNameChar, isLowerAlnumChar, Bool.or_eq_true,
      Bool.and_eq_true, decide_eq_true_eq]
    rw [charOfNat_toNat _ (by omega)]
    omega
  · rw [if_neg hc]
    simp only [isShortNameChar, isLowerAlnumChar, Bool.or_eq_true,
      Bool.and_eq_true, decide_eq_true_eq]
    omega

/-- The sanitized base splits around the (invariant) timestamp digits. -/
theorem shortNameSanitized_decomp (req : EmojiPackRequestM) :
    shortNameSanitized req =
      (("emoji_".toList ++ intStr req.user_id ++ ['_']).map
          (fun c => sanitizeChar (asciiLower c)) ++
        strftimeCompact req.requested_at) ++
      (shortNameTail req).map (fun c => sanitizeChar (asciiLower c)) := by
  have hts : (strftimeCompact req.requested_at).map asciiLower =
      strftimeCompact req.requested_at :=
    map_eq_self_of _ _ (fun c hc => asciiLower_digit (mem_strftime_range hc))
  have hts2 : (strftimeCompact req.requested_at).map sanitizeChar =
      strftimeCompact req.requested_at :=
    map_eq_self_of _ _ (fun c hc => sanitizeChar_digit (mem_strftime_range hc))
  rw [shortNameSanitized, lowerStr, List.map_append, List.map_append,
    List.map_append, List.map_append, hts, hts2, List.map_map, List.map_map]
  simp only [Function.comp_def]

/-- Success normal form of `_build_short_name`: the trimmed base is never
empty (the sanitized base starts with `e`), so the result is
`trimmed ++ suffix`. -/
theorem build_short_name_ok_form (req : EmojiPackRequestM)
    (username name : List Char)
    (hok : build_short_name req username = .ok name) :
    ¬ 64 ≤ (shortNameSuffix username).length ∧
    name = rstripUnderscore ((shortNameSanitized req).take
        (64 - (shortNameSuffix username).length)) ++
      shortNameSuffix username := by
  rw [build_short_name] at hok
  split_ifs at hok with hsuf
  injection hok with hok
  refine ⟨hsuf, ?_⟩
  have hhead : ∃ tail, shortNameSanitized req = 'e' :: tail := ⟨_, rfl⟩
  obtain ⟨tail, htail⟩ := hhead
  have hne0 : rstripUnderscore ((shortNameSanitized req).take
      (64 - (shortNameSuffix username).length)) ≠ [] := by
    rw [htail]
    obtain ⟨m, hm⟩ : ∃ m, 64 - (shortNameSuffix username).length = m + 1 :=
      ⟨63 - (shortNameSuffix username).length, by omega⟩
    rw [hm, List.take_succ_cons]
    exact rstripUnderscore_cons_ne_nil _ (by decide)
  rw [← hok, if_neg hne0]

def c4uname : List Char := List.replicate 32 'a'

def c4reqX : EmojiPackRequestM :=
  ⟨100000000000000000000, 0, ⟨"tmp".toList, "src".toList, ".png".toList⟩,
    "h".toList, ⟨1, 1⟩, 0, "u".toList, ⟨2026, 1, 1, 0, 0, 0, 0⟩⟩

def c4reqY : EmojiPackRequestM :=
  { c4reqX with requested_at := ⟨2026, 1, 1, 0, 0, 0, 1⟩ }

deriving instance DecidableEq for Except

def c4wreqA : EmojiPackRequestM :=
  ⟨7, 0, ⟨"tmp".toList, "src".toList, ".png".toList⟩,
    "h".toList, ⟨1, 1⟩, 0, "u".toList, ⟨2026, 1, 1, 0, 0, 0, 0⟩⟩

def c4wreqB : EmojiPackRequestM :=
  { c4wreqA with requested_at := ⟨2026, 1, 1, 0, 0, 0, 1⟩ }

/-- `\w` (ASCII fragment): `[a-zA-Z0-9_]`. -/
def isWordChar (c : Char) : Bool :=
  (97 ≤ c.toNat && c.toNat ≤ 122) || (65 ≤ c.toNat && c.toNat ≤ 90) ||
  (48 ≤ c.toNat && c.toNat ≤ 57) || c.toNat = 95

/-- `\s` / `str.isspace` (ASCII & Latin-1 fragment):
tab, LF, VT, FF, CR, FS..US, space, NEL, NBSP. -/
def isSpaceChar (c : Char) : Bool :=
  (9 ≤ c.toNat && c.toNat ≤ 13) || (28 ≤ c.toNat && c.toNat ≤ 31) ||
  c.toNat = 32 || c.toNat = 133 || c.toNat = 160

/-- `\d` (ASCII): `[0-9]`. -/
def isDigitChar (c : Char) : Bool := 48 ≤ c.toNat && c.toNat ≤ 57

/-- `[ \t]`. -/
def isBlankChar (c : Char) : Bool := c = ' ' || c = '\t'

/-- Match a literal pattern case-insensitively (`re.IGNORECASE`); the
pattern is given lowercased.  Returns the rest of the input. -/
def stripCI : List Char → List Char → Option (List Char)
  | [], s => some s
  | _ :: _, [] => none
  | p :: ps, c :: cs => if asciiLower c = p then stripCI ps cs else none

/-- Match a literal pattern case-sensitively.  Returns the rest. -/
def stripLit : List Char → List Char → Option (List Char)
  | [], s => some s
  | _ :: _, [] => none
  | p :: ps, c :: cs => if c = p then stripLit ps cs else none

/-- `\d+` (greedy; deterministic since nothing after it in the token can
start with a digit).  Returns the rest. -/
def takeDigits1 (s : List Char) : Option (List Char) :=
  match s with
  | [] => none
  | c :: cs => if isDigitChar c then some (cs.dropWhile isDigitChar) else none

/-- The `_TYPE_PART` alternation of `LLMArtifactsStage` (prefix-free, so
first-match is the only match). -/
def turnTypes : List (List Char) :=
  ["search".toList, "click".toList, "fetch".toList, "view".toList,
   "news".toList, "image".toList, "product".toList, "sports".toList,
   "finance".toList, "forecast".toList, "time".toList, "maps".toList,
   "calc".toList, "translate".toList, "msearch".toList, "mclick".toList]

def stripTypeAlt : List (List Char) → List Char → Option (List Char)
  | [], _ => none
  | t :: ts, s =>
    match stripCI t s with
    | some r => some r
    | none => stripTypeAlt ts s

/-- `turn\d+<type>\d+` without the boundary checks.  Returns the rest. -/
def parseCore (s : List Char) : Option (List Char) :=
  (stripCI "turn".toList s).bind fun r1 =>
    (takeDigits1 r1).bind fun r2 =>
      (stripTypeAlt turnTypes r2).bind fun r3 => takeDigits1 r3

/-- Does the list start with a non-word character (or end)?  This is `\b`
seen from the left when the previous character was a word character. -/
def nwHead : List Char → Bool
  | [] => true
  | c :: _ => !isWordChar c

/-- `turn\d+<type>\d+\b` anchored at the current position (the leading
`\b` is the caller's duty).  Returns the rest. -/
def parseToken (s : List Char) : Option (List Char) :=
  (parseCore s).bind fun r => if nwHead r then some r else none

/-- Greedy `(?:\s+(?:TOKEN))*` (each repetition is deterministic: `\s+` is
maximal since a token starts with a non-space, and the token itself is
deterministic).  Returns the rest. -/
def seqExtend : Nat → List Char → List Char
  | 0, s => s
  | fuel + 1, s =>
    let k := (s.takeWhile isSpaceChar).length
    if k = 0 then s
    else
      match parseToken (s.drop k) with
      | some r => seqExtend fuel r
      | none => s

/-- `RE_TURN_SEQ` anchored at the current position; `prevW` tells whether
the character before the position is a word character (`\b` context).
Returns the length of the match. -/
def matchTurnSeqAt (prevW : Bool) (s : List Char) : Option Nat :=
  if prevW then none
  else (parseToken s).map fun r => s.length - (seqExtend r.length r).length

/-- `RE_CITE_PLUS_SEQ` (`\bcite\b(?:\s+TOKEN)+`) anchored at the current
position.  Returns the length of the match. -/
def matchCiteSeqAt (prevW : Bool) (s : List Char) : Option Nat :=
  if prevW then none
  else
    (stripCI "cite".toList s).bind fun r1 =>
      if nwHead r1 = false then none
      else if (r1.takeWhile isSpaceChar).length = 0 then none
      else
        (parseToken (r1.drop (r1.takeWhile isSpaceChar).length)).map
          fun r2 => s.length - (seqExtend r2.length r2).length

/-- `RE_TURN_TOKEN.search`: scan every position, tracking whether the
previous character is a word character. -/
def hasTokAux : Bool → List Char → Bool
  | _, [] => false
  | prevW, c :: cs =>
    (!prevW && (parseToken (c :: cs)).isSome) || hasTokAux (isWordChar c) cs

def hasTurnTok (s : List Char) : Bool := hasTokAux false s

/-- `RE_CITE_PLUS_SEQ.search`. -/
def hasCiteAux : Bool → List Char → Bool
  | _, [] => false
  | prevW, c :: cs =>
    (matchCiteSeqAt prevW (c :: cs)).isSome || hasCiteAux (isWordChar c) cs

def hasCiteSeq (s : List Char) : Bool := hasCiteAux false s

/-- `re.sub`/`re.subn` driver: walk the string; at each position try the
matcher (which receives the previous original character for `^`/`\b`
context and returns the match length and its replacement), emit the
replacement and resume after the match, or copy one character.  All
patterns used here never match the empty string, so `s.length` steps of
fuel complete the scan. -/
def reSubCntAux (m : Option Char → List Char → Option (Nat × List Char)) :
    Nat → Option Char → List Char → List Char × Nat
  | 0, _, s => (s, 0)
  | fuel + 1, prev, s =>
    match s with
    | [] => ([], 0)
    | c :: cs =>
      match m prev (c :: cs) with
      | some (n, r) =>
        let rest := reSubCntAux m fuel ((c :: cs).take n).getLast? ((c :: cs).drop n)
        (r ++ rest.1, rest.2 + 1)
      | none =>
        let rest := reSubCntAux m fuel (some c) cs
        (c :: rest.1, rest.2)

def pySubn (m : Option Char → List Char → Option (Nat × List Char))
    (s : List Char) : List Char × Nat :=
  reSubCntAux m s.length none s

def pySub (m : Option Char → List Char → Option (Nat × List Char))
    (s : List Char) : List Char :=
  (pySubn m s).1

def prevWOf : Option Char → Bool
  | none => false
  | some c => isWordChar c

def matchTurnSeqM (prev : Option Char) (s : List Char) :
    Option (Nat × List Char) :=
  (matchTurnSeqAt (prevWOf prev) s).map (fun n => (n, []))

def matchCiteSeqM (prev : Option Char) (s : List Char) :
    Option (Nat × List Char) :=
  (matchCiteSeqAt (prevWOf prev) s).map (fun n => (n, []))

/-- `RE_TURN_SEQ.subn("", ·)`. -/
def subTurnSeq (s : List Char) : List Char × Nat := pySubn matchTurnSeqM s

/-- `RE_CITE_PLUS_SEQ.subn("", ·)`. -/
def subCiteSeq (s : List Char) : List Char × Nat := pySubn matchCiteSeqM s

/-- Was the previous original character a line break (`(?m)^` context)? -/
def atLineStart : Option Char → Bool
  | none => true
  | some c => c = '\n'

def isClosePunct (c : Char) : Bool :=
  c = ',' || c = '.' || c = ';' || c = ':' || c = ')' || c = ']' ||
  c.toNat = 125

def isOpenBr (c : Char) : Bool := c = '(' || c = '[' || c.toNat = 123

def isDupPunct (c : Char) : Bool := c = ',' || c = '.' || c = ';' || c = ':'

/-- Rule 1 of `cleanup_punctuation_and_spaces`: `[ \t]{2,}` → `" "`. -/
def matchBlankRunM (_ : Option Char) (s : List Char) : Option (Nat × List Char) :=
  let n := (s.takeWhile isBlankChar).length
  if 2 ≤ n then some (n, [' ']) else none

/-- Rule 2: `\s+([,.;:)\]\x7d])` → `\1` (the `\s+` is maximal: a shorter
run would put a whitespace character where the punctuation must be). -/
def matchWsBeforePunctM (_ : Option Char) (s : List Char) : Option (Nat × List Char) :=
  let k := (s.takeWhile isSpaceChar).length
  if k = 0 then none
  else
    match s.drop k with
    | c :: _ => if isClosePunct c then some (k + 1, [c]) else none
    | [] => none

/-- Rule 3: `([\(\[\x7b])\s+` → `\1`. -/
def matchOpenWsM (_ : Option Char) (s : List Char) : Option (Nat × List Char) :=
  match s with
  | c :: rest =>
    if isOpenBr c then
      let k := (rest.takeWhile isSpaceChar).length
      if k = 0 then none else some (1 + k, [c])
    else none
  | [] => none

/-- Rule 4: `([,.;:])\s*\1+` → `\1`. -/
def matchDupPunctM (_ : Option Char) (s : List Char) : Option (Nat × List Char) :=
  match s with
  | c :: rest =>
    if isDupPunct c then
      let k := (rest.takeWhile isSpaceChar).length
      let m := ((rest.drop k).takeWhile (fun d => d = c)).length
      if 1 ≤ m then some (1 + k + m, [c]) else none
    else none
  | [] => none

/-- Rule 5: `(?m)^[\t ]*([,.;:])\s*` → `""` (the trailing `\s*` may eat
line breaks). -/
def matchLineLeadPunctM (prev : Option Char) (s : List Char) : Option (Nat × List Char) :=
  if atLineStart prev then
    let k := (s.takeWhile isBlankChar).length
    match s.drop k with
    | c :: rest =>
      if isDupPunct c then some (k + 1 + (rest.takeWhile isSpaceChar).length, [])
      else none
    | [] => none
  else none

/-- Rule 6: `(?m)[ \t]+$` → `""` (`$` = end of input or before a `\n`). -/
def matchTrailBlankM (_ : Option Char) (s : List Char) : Option (Nat × List Char) :=
  let k := (s.takeWhile isBlankChar).length
  if k = 0 then none
  else
    match s.drop k with
    | [] => some (k, [])
    | '\n' :: _ => some (k, [])
    | _ => none

/-- Rule 7: `\n{3,}` → `"\n\n"`. -/
def matchManyNewlinesM (_ : Option Char) (s : List Char) : Option (Nat × List Char) :=
  let k := (s.takeWhile (fun c => c = '\n')).length
  if 3 ≤ k then some (k, ['\n', '\n']) else none

/-- `text_utils.cleanup_punctuation_and_spaces`: the seven `re.sub`s in
source order. -/
def cleanup_punctuation_and_spaces (s : List Char) : List Char :=
  pySub matchManyNewlinesM (pySub matchTrailBlankM (pySub matchLineLeadPunctM
    (pySub matchDupPunctM (pySub matchOpenWsM (pySub matchWsBeforePunctM
      (pySub matchBlankRunM s))))))

def closeOf (c : Char) : Char :=
  if c = '(' then ')' else if c = '[' then ']' else Char.ofNat 125

/-- `RE_EMPTY_BRACKETS`: `\(\s*\)|\[\s*\]|\x7b\s*\x7d`. -/
def matchEmptyPairM (_ : Option Char) (s : List Char) : Option (Nat × List Char) :=
  match s with
  | c :: rest =>
    if isOpenBr c then
      let k := (rest.takeWhile isSpaceChar).length
      match rest.drop k with
      | d :: _ => if d = closeOf c then some (1 + k + 1, []) else none
      | [] => none
    else none
  | [] => none

def subEmptyBrackets (s : List Char) : List Char := pySub matchEmptyPairM s

/-- The `while prev != text` loop of `remove_empty_brackets`; every
productive iteration removes at least two characters, so `s.length`
iterations reach the fixpoint. -/
def removeEmptyBracketsAux : Nat → List Char → List Char
  | 0, s => s
  | fuel + 1, s =>
    let t := subEmptyBrackets s
    if t = s then s else removeEmptyBracketsAux fuel t

/-- `text_utils.remove_empty_brackets`. -/
def remove_empty_brackets (s : List Char) : List Char :=
  removeEmptyBracketsAux s.length s

/-- `str.splitlines` boundary characters (ASCII/Latin-1 fragment):
LF, VT, FF, CR, FS, GS, RS, NEL; `\r\n` counts as one boundary. -/
def isLineBoundary (c : Char) : Bool :=
  c = '\n' || (11 ≤ c.toNat && c.toNat ≤ 13) ||
  (28 ≤ c.toNat && c.toNat ≤ 30) || c.toNat = 133

def pySplitlinesAux : List Char → List Char → List (List Char)
  | acc, [] => if acc = [] then [] else [acc.reverse]
  | acc, '\r' :: '\n' :: rest => acc.reverse :: pySplitlinesAux [] rest
  | acc, c :: rest =>
    if isLineBoundary c then acc.reverse :: pySplitlinesAux [] rest
    else pySplitlinesAux (c :: acc) rest

/-- `str.splitlines()` (no terminal empty line after a trailing break). -/
def pySplitlines (s : List Char) : List (List Char) := pySplitlinesAux [] s

/-- `str.strip()` whitespace, `= isSpaceChar` on this fragment. -/
def pyRstrip (s : List Char) : List Char :=
  (s.reverse.dropWhile isSpaceChar).reverse

def pyStrip (s : List Char) : List Char :=
  ((s.dropWhile isSpaceChar).reverse.dropWhile isSpaceChar).reverse

/-- `re.fullmatch(r"[ \t*]*", ·)`. -/
def isBlankOrStars (s : List Char) : Bool :=
  s.all (fun c => c = ' ' || c = '\t' || c = '*')

/-- The `[\-\*\+•]` list-marker class of `drop_empty_lines_and_list_items`. -/
def isListMarker (c : Char) : Bool :=
  c = '-' || c = '*' || c = '+' || c.toNat = 8226

/-- `re.fullmatch(r"[ \t]*[\-\*\+•][ \t]*", ·)`. -/
def isBareMarkerLine (s : List Char) : Bool :=
  match s.dropWhile isBlankChar with
  | c :: rest => isListMarker c && rest.all isBlankChar
  | [] => false

/-- `re.match(r"^[ \t]*([\-\*\+•])\s+(.*)$", ·)`: returns group 2 (the
text after the marker and the maximal whitespace run). -/
def markerContent (s : List Char) : Option (List Char) :=
  match s.dropWhile isBlankChar with
  | c :: rest =>
    if isListMarker c then
      if (rest.takeWhile isSpaceChar).length = 0 then none
      else some (rest.dropWhile isSpaceChar)
    else none
  | [] => none

/-- `_is_empty_content` of `drop_empty_lines_and_list_items`. -/
def isEmptyContent (v : List Char) : Bool :=
  isBlankOrStars (remove_empty_brackets v)

/-- The per-line filter of `drop_empty_lines_and_list_items`. -/
def dropLinesStep (line : List Char) : Option (List Char) :=
  let raw := pyRstrip line
  let stripped := pyStrip raw
  if stripped = [] then some []
  else if isBareMarkerLine raw then none
  else
    match markerContent raw with
    | some content =>
      if isEmptyContent content then none
      else if pyStrip (remove_empty_brackets content) = [] then none
      else some raw
    | none =>
      if isEmptyContent stripped then none
      else if pyStrip (remove_empty_brackets stripped) = [] then none
      else some raw

def joinLines : List (List Char) → List Char
  | [] => []
  | [l] => l
  | l :: ls => l ++ '\n' :: joinLines ls

/-- `text_utils.drop_empty_lines_and_list_items`. -/
def drop_empty_lines_and_list_items (s : List Char) : List Char :=
  pySub matchManyNewlinesM
    (joinLines ((pySplitlines s).filterMap dropLinesStep))

/-- A frame of the bracket stack in `_remove_bracketed_groups_with_markers`. -/
structure BrFrame where
  ch : Char
  pos : Nat
  has_marker : Bool
deriving DecidableEq, Repr

/-- `closes`: map a closing bracket to its opener. -/
def brCloses (c : Char) : Option Char :=
  if c = ')' then some '('
  else if c = ']' then some '['
  else if c.toNat = 125 then some (Char.ofNat 123)
  else none

/-- The index scan of `_remove_bracketed_groups_with_markers`: push openers,
pop on a matching closer, record `(start, end)` when the inner slice holds a
cite/turn marker (or an inner group did), and propagate the marker to the
enclosing frame.  `s` is the whole string (for the inner slices), `i` the
index of the head of the fourth argument. -/
def brScanAux (s : List Char) :
    Nat → List BrFrame → List (Nat × Nat) → List Char → List (Nat × Nat)
  | _, _, removable, [] => removable
  | i, stack, removable, c :: cs =>
    if isOpenBr c then
      brScanAux s (i + 1) (⟨c, i, false⟩ :: stack) removable cs
    else
      match brCloses c with
      | some o =>
        match stack with
        | top :: stk =>
          if top.ch = o then
            let inner := (s.drop (top.pos + 1)).take (i - top.pos - 1)
            let hm := hasCiteSeq inner || hasTurnTok inner || top.has_marker
            let removable2 := if hm then removable ++ [(top.pos, i)] else removable
            let stk2 :=
              match stk with
              | t2 :: rest => ⟨t2.ch, t2.pos, t2.has_marker || hm⟩ :: rest
              | [] => []
            brScanAux s (i + 1) stk2 removable2 cs
          else brScanAux s (i + 1) stack removable cs
        | [] => brScanAux s (i + 1) stack removable cs
      | none => brScanAux s (i + 1) stack removable cs

/-- `removable.sort()`: lexicographic order on the interval pairs. -/
def ivLE (a b : Nat × Nat) : Prop :=
  a.1 < b.1 ∨ (a.1 = b.1 ∧ a.2 ≤ b.2)

instance : DecidableRel ivLE := fun a b => by
  unfold ivLE
  infer_instance

/-- The interval-merge loop of `_remove_bracketed_groups_with_markers`
(`acc` holds the merged list reversed, its head being `merged[-1]`). -/
def mergeIvAux : List (Nat × Nat) → List (Nat × Nat) → List (Nat × Nat)
  | acc, [] => acc.reverse
  | acc, (a, b) :: rest =>
    match acc with
    | [] => mergeIvAux [(a, b)] rest
    | (pa, pb) :: acc2 =>
      if pb + 1 < a then mergeIvAux ((a, b) :: (pa, pb) :: acc2) rest
      else mergeIvAux ((pa, max pb b) :: acc2) rest

/-- The parts-and-join tail of `_remove_bracketed_groups_with_markers`:
keep `s[start:a]` for each merged interval `(a, b)`, resuming at `b + 1`. -/
def removeMergedAux (s : List Char) : List (Nat × Nat) → Nat → List Char
  | [], start => s.drop start
  | (a, b) :: rest, start =>
    (s.drop start).take (a - start) ++ removeMergedAux s rest (b + 1)

/-- `LLMArtifactsStage._remove_bracketed_groups_with_markers`, returning the
new text and the number of merged groups added to `llm_bracket_groups`. -/
def remove_bracketed_groups (s : List Char) : List Char × Nat :=
  let removable := brScanAux s 0 [] [] s
  if removable = [] then (s, 0)
  else
    let merged := mergeIvAux [] (removable.insertionSort ivLE)
    (removeMergedAux s merged 0, merged.length)

/-- The `stats` mapping of `NormalizationContext` (a Python dict keeps
insertion order: replace in place or append). -/
def setStat : List (String × Nat) → String → Nat → List (String × Nat)
  | [], k, v => [(k, v)]
  | kv :: rest, k, v =>
    if kv.1 = k then (k, v) :: rest else kv :: setStat rest k v

def getStat (st : List (String × Nat)) (k : String) : Nat :=
  match st.find? (fun kv => kv.1 = k) with
  | some kv => kv.2
  | none => 0

def hasStatKey (st : List (String × Nat)) (k : String) : Bool :=
  st.any (fun kv => kv.1 = k)

def addStat (st : List (String × Nat)) (k : String) (v : Nat) :
    List (String × Nat) :=
  setStat st k (getStat st k + v)

/-- `NormalizationContext` (text and stats; `metadata`/`original_text` are
not touched by these stages). -/
structure NCtx where
  text : List Char
  stats : List (String × Nat)
deriving DecidableEq, Repr

/-- `LLMArtifactsStage.apply`. -/
def llm_artifacts_apply (ctx : NCtx) : NCtx :=
  let st0 := if hasStatKey ctx.stats "llm_tokens" then ctx.stats
             else setStat ctx.stats "llm_tokens" 0
  let st1 := if hasStatKey st0 "llm_cite" then st0
             else setStat st0 "llm_cite" 0
  let st2 := if hasStatKey st1 "llm_bracket_groups" then st1
             else setStat st1 "llm_bracket_groups" 0
  let p1 := remove_bracketed_groups ctx.text
  let p2 := subCiteSeq p1.1
  let p3 := subTurnSeq p2.1
  let t4 := cleanup_punctuation_and_spaces p3.1
  let t5 := (subTurnSeq t4).1
  let t6 := remove_empty_brackets t5
  let t7 := cleanup_punctuation_and_spaces t6
  let t8 := drop_empty_lines_and_list_items t7
  let st3 := if p3.2 ≠ 0 then addStat st2 "llm_tokens" p3.2 else st2
  let st4 := if p2.2 ≠ 0 then addStat st3 "llm_cite" p2.2 else st3
  let st5 := if p1.2 ≠ 0 then addStat st4 "llm_bracket_groups" p1.2 else st4
  ⟨t8, st5⟩

def isDashChar (c : Char) : Bool :=
  (8210 ≤ c.toNat && c.toNat ≤ 8213) || c.toNat = 8722

def isQuoteChar (c : Char) : Bool :=
  c.toNat = 171 || c.toNat = 187 || (8216 ≤ c.toNat && c.toNat ≤ 8223) ||
  c.toNat = 8249 || c.toNat = 8250

/-- The `RE_BULLETS` marker class of `TypographyStage`. -/
def isTypoBullet (c : Char) : Bool :=
  c.toNat = 8226 || c.toNat = 8227 || c.toNat = 9702 || c.toNat = 8259 ||
  c.toNat = 8729 || c = '-' || c.toNat = 8211 || c.toNat = 8212

/-- `preflight-stats` (spec §4.5 item 1; this stage's module is not in the
source tree, so it is modelled on the spec's words: count dash, quote,
list-bullet-prefix and NBSP occurrences and record them; text unchanged). -/
def preflight_stats_apply (ctx : NCtx) : NCtx :=
  let d := (ctx.text.filter isDashChar).length
  let q := (ctx.text.filter isQuoteChar).length
  let b := ((pySplitlines ctx.text).filter (fun l =>
      match l.dropWhile isSpaceChar with
      | c :: e :: _ => isTypoBullet c && isSpaceChar e
      | _ => false)).length
  let n := (ctx.text.filter (fun c => c.toNat = 160)).length
  ⟨ctx.text,
    setStat (setStat (setStat (setStat ctx.stats "dashes" d) "quotes" q)
      "bullets" b) "nbsp" n⟩

/-- `final-cleanup` (spec §4.5 item 5; the stage module is not in the
source tree: remove empty bracket pairs, run the punctuation/space cleanup,
drop empty lines and bare list items — the three `text_utils` helpers). -/
def final_cleanup_apply (ctx : NCtx) : NCtx :=
  ⟨drop_empty_lines_and_list_items (cleanup_punctuation_and_spaces
    (remove_empty_brackets ctx.text)), ctx.stats⟩

/-- `RE_REFERENCE_LINK` (`\[([^\]]+)\]\s*\[([^\]]+)\]`) anchored at the
current position: length of the match and the two groups. -/
def matchRefLink (s : List Char) : Option (Nat × List Char × List Char) :=
  match s with
  | '[' :: rest =>
    let g1 := rest.takeWhile (fun c => !(c = ']'))
    if g1 = [] then none
    else
      match rest.drop g1.length with
      | ']' :: rest2 =>
        let ws := rest2.takeWhile isSpaceChar
        match rest2.drop ws.length with
        | '[' :: rest3 =>
          let g2 := rest3.takeWhile (fun c => !(c = ']'))
          if g2 = [] then none
          else
            match rest3.drop g2.length with
            | ']' :: _ =>
              some (1 + g1.length + 1 + ws.length + 1 + g2.length + 1, g1, g2)
            | _ => none
        | _ => none
      | _ => none
  | _ => none

/-- `finditer(RE_REFERENCE_LINK, ·)`: `(start, end, group1, group2)`. -/
def findRefLinksAux : Nat → Nat → List Char → List (Nat × Nat × List Char × List Char)
  | 0, _, _ => []
  | fuel + 1, i, s =>
    match s with
    | [] => []
    | c :: cs =>
      match matchRefLink (c :: cs) with
      | some (n, g1, g2) =>
        (i, i + n, g1, g2) :: findRefLinksAux fuel (i + n) ((c :: cs).drop n)
      | none => findRefLinksAux fuel (i + 1) cs

/-- `^\s*\[label\]\s*:\s*\S+` anchored at the current position (each `\s*`
is maximal, as the next pattern character is never whitespace). -/
def refDefHeadB (label : List Char) (s : List Char) : Bool :=
  match stripLit ('[' :: (label ++ [']'])) (s.dropWhile isSpaceChar) with
  | none => false
  | some r2 =>
    match r2.dropWhile isSpaceChar with
    | ':' :: r3 => !(r3.dropWhile isSpaceChar).isEmpty
    | _ => false

/-- `re.search(^\s*\[label\]\s*:\s*\S+, text, re.MULTILINE)`: try the
string start and every position after a `\n`. -/
def refDefExistsAux (label : List Char) : Option Char → List Char → Bool
  | _, [] => false
  | prev, c :: cs =>
    (atLineStart prev && refDefHeadB label (c :: cs)) ||
      refDefExistsAux label (some c) cs

def definedLabel (text label : List Char) : Bool :=
  refDefExistsAux label none text

/-- `content.strip(' \t\n\r\x0c\x0b(),.;:!?\x27\x22')`. -/
def refStripSet (c : Char) : Bool :=
  c = ' ' || c = '\t' || c = '\n' || c = '\r' || c.toNat = 12 ||
  c.toNat = 11 || c = '(' || c = ')' || c = ',' || c = '.' || c = ';' ||
  c = ':' || c = '!' || c = '?' || c.toNat = 39 || c.toNat = 34

def stripBothIf (P : Char → Bool) (s : List Char) : List Char :=
  ((s.dropWhile P).reverse.dropWhile P).reverse

def isAsciiLetter (c : Char) : Bool :=
  (97 ≤ c.toNat && c.toNat ≤ 122) || (65 ≤ c.toNat && c.toNat ≤ 90)

/-- `[a-zA-Z0-9-]`. -/
def isDomLabelChar (c : Char) : Bool := isAsciiLetter c || isDigitChar c || c = '-'

/-- `(?:[^\s]*)?$`: the greedy run of non-whitespace ends the match iff
nothing, or a single final newline, remains. -/
def domainTailOk (s : List Char) : Bool :=
  match s.dropWhile (fun c => !isSpaceChar c) with
  | [] => true
  | ['\n'] => true
  | _ => false

/-- `[a-zA-Z]{2,}(?:[^\s]*)?$` at the current position. -/
def domainFinish (s : List Char) : Bool :=
  2 ≤ (s.takeWhile isAsciiLetter).length && domainTailOk s

/-- `(?:[a-zA-Z0-9-]+\.)+` then `domainFinish`, trying every repetition
count (the repetitions themselves are deterministic since `.` is not in
the label class). -/
def domainChain : Nat → List Char → Bool
  | 0, _ => false
  | fuel + 1, s =>
    let run := s.takeWhile isDomLabelChar
    if run = [] then false
    else
      match s.drop run.length with
      | '.' :: rest => domainFinish rest || domainChain fuel rest
      | _ => false

/-- `RE_DOMAIN.match` (`^(?:https?://)?(?:[a-zA-Z0-9-]+\.)+[a-zA-Z]{2,}
(?:[^\s]*)?$`, `re.IGNORECASE`). -/
def matchDomainB (s : List Char) : Bool :=
  domainChain s.length s ||
  (match stripCI "http://".toList s with
   | some r => domainChain r.length r
   | none => false) ||
  (match stripCI "https://".toList s with
   | some r => domainChain r.length r
   | none => false)

def startsWithSeg : List Char → List Char → Bool
  | [], _ => true
  | _ :: _, [] => false
  | p :: ps, c :: cs => p = c && startsWithSeg ps cs

/-- The replacement for one undefined reference-style link (`content` is
group 1). -/
def refReplacement (content : List Char) : List Char :=
  let stripped := stripBothIf refStripSet content
  if !stripped.isEmpty && matchDomainB stripped then
    if startsWithSeg "http://".toList stripped ||
        startsWithSeg "https://".toList stripped then stripped
    else "https://".toList ++ stripped
  else content

/-- The `for match in reversed(matches)` substitution loop; the argument
list is already reversed, `defined` is membership in `defined_references`. -/
def applyRefSubsAux (defined : List Char → Bool) :
    List (Nat × Nat × List Char × List Char) → List Char × Nat → List Char × Nat
  | [], acc => acc
  | (a, b, g1, g2) :: rest, (t, k) =>
    if defined g2 then applyRefSubsAux defined rest (t, k)
    else applyRefSubsAux defined rest
      (t.take a ++ refReplacement g1 ++ t.drop b, k + 1)

/-- `^\s*\[label\]\s*:.*$` (MULTILINE) as a substitution matcher. -/
def matchRefDefLineM (label : List Char) (prev : Option Char) (s : List Char) :
    Option (Nat × List Char) :=
  if atLineStart prev then
    let k := (s.takeWhile isSpaceChar).length
    match stripLit ('[' :: (label ++ [']'])) (s.drop k) with
    | none => none
    | some r2 =>
      let k2 := (r2.takeWhile isSpaceChar).length
      match r2.drop k2 with
      | ':' :: r3 =>
        some (k + (label.length + 2) + k2 + 1 +
          (r3.takeWhile (fun c => !(c = '\n'))).length, [])
      | _ => none
  else none

def dedupAux : List (List Char) → List (List Char) → List (List Char)
  | seen, [] => seen.reverse
  | seen, l :: ls =>
    if seen.contains l then dedupAux seen ls else dedupAux (l :: seen) ls

/-- `ReferenceLinksStage.apply`.  (Python iterates the `reference_labels`
set when removing orphaned definitions; the embedding fixes the
first-occurrence order.) -/
def reference_links_apply (ctx : NCtx) : NCtx :=
  let text := ctx.text
  let ms := findRefLinksAux text.length 0 text
  if ms = [] then ctx
  else
    let p := applyRefSubsAux (definedLabel text) ms.reverse (text, 0)
    if p.2 = 0 then ctx
    else
      let labels := dedupAux [] (ms.map (fun m => m.2.2.2))
      let t2 := (labels.filter (fun l => !definedLabel text l)).foldl
        (fun t l => pySub (matchRefDefLineM l) t) p.1
      ⟨cleanup_punctuation_and_spaces t2, addStat ctx.stats "reference_links" p.2⟩

/-- `RE_BULLETS` of `TypographyStage` as a substitution matcher
(`^[\s\t]*([…bullets…])\s+` → `"- "`). -/
def matchTypoBulletM (prev : Option Char) (s : List Char) :
    Option (Nat × List Char) :=
  if atLineStart prev then
    let k := (s.takeWhile isSpaceChar).length
    match s.drop k with
    | c :: rest =>
      if isTypoBullet c then
        let j := (rest.takeWhile isSpaceChar).length
        if j = 0 then none else some (k + 1 + j, ['-', ' '])
      else none
    | [] => none
  else none

/-- `TypographyStage.apply`. -/
def typography_apply (ctx : NCtx) : NCtx :=
  let t1 := ctx.text.map (fun c => if isDashChar c then '-' else c)
  let t2 := t1.map (fun c => if isQuoteChar c then Char.ofNat 34 else c)
  let t3 := pySub matchTypoBulletM t2
  let t4 := t3.map (fun c => if c.toNat = 160 then ' ' else c)
  let t5 := remove_empty_brackets t4
  let t6 := cleanup_punctuation_and_spaces t5
  let t7 := drop_empty_lines_and_list_items t6
  ⟨t7, ctx.stats⟩

/-- The default normalization pipeline (spec §4.5 stage order;
the registry module wiring the stages is not in the source tree). -/
def normalization_pipeline_run (s : List Char) : NCtx :=
  final_cleanup_apply (typography_apply (reference_links_apply
    (llm_artifacts_apply (preflight_stats_apply ⟨s, []⟩))))

theorem word_of_lower_eq {c p : Char} (h : asciiLower c = p)
    (hp : isWordChar p = true) : isWordChar c = true := by
  rw [asciiLower] at h
  by_cases hc : 65 ≤ c.toNat ∧ c.toNat ≤ 90
  · simp only [isWordChar, Bool.or_eq_true, Bool.and_eq_true,
      decide_eq_true_eq]
    omega
  · rw [if_neg hc] at h
    rw [h]
    exact hp

theorem lower_nonword_ne {c p : Char} (hc : isWordChar c = false)
    (hp : isWordChar p = true) : asciiLower c ≠ p := by
  intro h
  rw [word_of_lower_eq h hp] at hc
  exact Bool.noConfusion hc

theorem space_not_word {c : Char} (h : isSpaceChar c = true) :
    isWordChar c = false := by
  simp only [isSpaceChar, Bool.or_eq_true, Bool.and_eq_true,
    decide_eq_true_eq] at h
  rw [Bool.eq_false_iff]
  intro hw
  simp only [isWordChar, Bool.or_eq_true, Bool.and_eq_true,
    decide_eq_true_eq] at hw
  omega

theorem digit_is_word {c : Char} (h : isDigitChar c = true) :
    isWordChar c = true := by
  simp only [isDigitChar, Bool.and_eq_true, decide_eq_true_eq] at h
  simp only [isWordChar, Bool.or_eq_true, Bool.and_eq_true,
    decide_eq_true_eq]
  omega

theorem stripCI_suffix {p s r : List Char} (h : stripCI p s = some r) :
    r.IsSuffix s := by
  induction s generalizing p r with
  | nil =>
    cases p with
    | nil =>
      simp only [stripCI, Option.some.injEq] at h
      subst h
      exact List.suffix_rfl
    | cons a ps => exact Option.noConfusion h
  | cons c cs ih =>
    cases p with
    | nil =>
      simp only [stripCI, Option.some.injEq] at h
      subst h
      exact List.suffix_rfl
    | cons a ps =>
      simp only [stripCI] at h
      split_ifs at h with hc
      exact (ih h).trans (List.suffix_cons c cs)

theorem stripCI_length {p s r : List Char} (h : stripCI p s = some r) :
    r.length + p.length = s.length := by
  induction s generalizing p r with
  | nil =>
    cases p with
    | nil =>
      simp only [stripCI, Option.some.injEq] at h
      subst h
      rfl
    | cons a ps => exact Option.noConfusion h
  | cons c cs ih =>
    cases p with
    | nil =>
      simp only [stripCI, Option.some.injEq] at h
      subst h
      simp
    | cons a ps =>
      simp only [stripCI] at h
      split_ifs at h with hc
      have := ih h
      simp only [List.length_cons]
      omega

theorem takeDigits1_suffix {s r : List Char} (h : takeDigits1 s = some r) :
    r.IsSuffix s := by
  cases s with
  | nil => exact Option.noConfusion h
  | cons c cs =>
    simp only [takeDigits1] at h
    split_ifs at h with hc
    simp only [Option.some.injEq] at h
    subst h
    exact (List.dropWhile_suffix isDigitChar).trans (List.suffix_cons c cs)

theorem takeDigits1_length_lt {s r : List Char} (h : takeDigits1 s = some r) :
    r.length < s.length := by
  cases s with
  | nil => exact Option.noConfusion h
  | cons c cs =>
    simp only [takeDigits1] at h
    split_ifs at h with hc
    simp only [Option.some.injEq] at h
    subst h
    have := (List.dropWhile_suffix (l := cs) isDigitChar).length_le
    simp only [List.length_cons]
    omega

theorem stripTypeAlt_suffix {ts : List (List Char)} {s r : List Char}
    (h : stripTypeAlt ts s = some r) : r.IsSuffix s := by
  induction ts with
  | nil => exact Option.noConfusion h
  | cons t ts ih =>
    simp only [stripTypeAlt] at h
    cases hc : stripCI t s with
    | some r2 =>
      rw [hc, Option.some.injEq] at h
      subst h
      exact stripCI_suffix hc
    | none =>
      rw [hc] at h
      exact ih h

theorem parseCore_suffix {s r : List Char} (h : parseCore s = some r) :
    r.IsSuffix s := by
  rw [parseCore] at h
  cases h1 : stripCI "turn".toList s with
  | none => rw [h1] at h; exact Option.noConfusion h
  | some r1 =>
    rw [h1] at h
    simp only [Option.some_bind] at h
    cases h2 : takeDigits1 r1 with
    | none => rw [h2] at h; exact Option.noConfusion h
    | some r2 =>
      rw [h2] at h
      simp only [Option.some_bind] at h
      cases h3 : stripTypeAlt turnTypes r2 with
      | none => rw [h3] at h; exact Option.noConfusion h
      | some r3 =>
        rw [h3] at h
        simp only [Option.some_bind] at h
        exact (((takeDigits1_suffix h).trans
          (stripTypeAlt_suffix h3)).trans (takeDigits1_suffix h2)).trans
          (stripCI_suffix h1)

theorem parseCore_length_lt {s r : List Char} (h : parseCore s = some r) :
    r.length < s.length := by
  rw [parseCore] at h
  cases h1 : stripCI "turn".toList s with
  | none => rw [h1] at h; exact Option.noConfusion h
  | some r1 =>
    rw [h1] at h
    simp only [Option.some_bind] at h
    cases h2 : takeDigits1 r1 with
    | none => rw [h2] at h; exact Option.noConfusion h
    | some r2 =>
      rw [h2] at h
      simp only [Option.some_bind] at h
      cases h3 : stripTypeAlt turnTypes r2 with
      | none => rw [h3] at h; exact Option.noConfusion h
      | some r3 =>
        rw [h3] at h
        simp only [Option.some_bind] at h
        have l1 := stripCI_length h1
        have l2 := takeDigits1_length_lt h2
        have l3 := (stripTypeAlt_suffix h3).length_le
        have l4 := takeDigits1_length_lt h
        simp only [String.toList] at l1
        omega

theorem parseToken_eq {s r : List Char} (h : parseToken s = some r) :
    parseCore s = some r ∧ nwHead r = true := by
  rw [parseToken] at h
  cases hc : parseCore s with
  | none => rw [hc] at h; exact Option.noConfusion h
  | some r2 =>
    rw [hc] at h
    simp only [Option.some_bind] at h
    split_ifs at h with hn
    simp only [Option.some.injEq] at h
    subst h
    exact ⟨rfl, hn⟩

theorem parseToken_suffix {s r : List Char} (h : parseToken s = some r) :
    r.IsSuffix s := parseCore_suffix (parseToken_eq h).1

theorem parseToken_length_lt {s r : List Char} (h : parseToken s = some r) :
    r.length < s.length := parseCore_length_lt (parseToken_eq h).1

theorem parseToken_nwHead {s r : List Char} (h : parseToken s = some r) :
    nwHead r = true := (parseToken_eq h).2

theorem seqExtend_suffix : ∀ (fuel : Nat) (s : List Char),
    (seqExtend fuel s).IsSuffix s := by
  intro fuel
  induction fuel with
  | zero => intro s; exact List.suffix_rfl
  | succ fuel ih =>
    intro s
    rw [seqExtend]
    split_ifs with hk
    · exact List.suffix_rfl
    · cases hp : parseToken (s.drop (s.takeWhile isSpaceChar).length) with
      | none =>
        simp only [hp]
        exact List.suffix_rfl
      | some r =>
        simp only [hp]
        exact ((ih r).trans (parseToken_suffix hp)).trans
          (List.drop_suffix _ s)

theorem seqExtend_nwHead : ∀ (fuel : Nat) (s : List Char),
    nwHead s = true → nwHead (seqExtend fuel s) = true := by
  intro fuel
  induction fuel with
  | zero => intro s h; exact h
  | succ fuel ih =>
    intro s h
    rw [seqExtend]
    split_ifs with hk
    · exact h
    · cases hp : parseToken (s.drop (s.takeWhile isSpaceChar).length) with
      | none =>
        simp only [hp]
        exact h
      | some r =>
        simp only [hp]
        exact ih r (parseToken_nwHead hp)

theorem suffix_drop_length_sub {r s : List Char} (h : r.IsSuffix s) :
    s.drop (s.length - r.length) = r := by
  obtain ⟨t, rfl⟩ := h
  rw [List.length_append]
  have e : t.length + r.length - r.length = t.length := by omega
  rw [e, List.drop_left]

theorem matchTurnSeqAt_spec {prevW : Bool} {s : List Char} {n : Nat}
    (h : matchTurnSeqAt prevW s = some n) :
    prevW = false ∧ 1 ≤ n ∧ n ≤ s.length ∧ nwHead (s.drop n) = true := by
  rw [matchTurnSeqAt] at h
  split_ifs at h with hw
  cases hp : parseToken s with
  | none =>
    rw [hp] at h
    exact Option.noConfusion h
  | some r =>
    simp only [hp, Option.map_some', Option.some.injEq] at h
    have hsuf : (seqExtend r.length r).IsSuffix s :=
      (seqExtend_suffix r.length r).trans (parseToken_suffix hp)
    have hlt : (seqExtend r.length r).length ≤ r.length :=
      (seqExtend_suffix r.length r).length_le
    have hr := parseToken_length_lt hp
    refine ⟨by simp only [Bool.not_eq_true] at hw; exact hw, by omega,
      by omega, ?_⟩
    rw [← h, suffix_drop_length_sub hsuf]
    exact seqExtend_nwHead r.length r (parseToken_nwHead hp)

theorem parseToken_none_nonword {c : Char} {cs : List Char}
    (h : isWordChar c = false) : parseToken (c :: cs) = none := by
  have ht : "turn".toList = 't' :: ['u', 'r', 'n'] := rfl
  have h4 : stripCI "turn".toList (c :: cs) = none := by
    rw [ht]
    simp only [stripCI]
    rw [if_neg (lower_nonword_ne h (by decide))]
  rw [parseToken, parseCore, h4]
  rfl

theorem nwHead_dropWhile_word (s : List Char) :
    nwHead (s.dropWhile isWordChar) = true := by
  induction s with
  | nil => rfl
  | cons c cs ih =>
    rw [List.dropWhile_cons]
    by_cases hc : isWordChar c = true
    · rw [if_pos hc]
      exact ih
    · rw [if_neg hc, nwHead]
      cases hw : isWordChar c
      · rfl
      · exact absurd hw hc

theorem dropWhile_append_word {P : Char → Bool} {w d : List Char}
    (hP : ∀ c, P c = true → isWordChar c = true) (hd : nwHead d = true) :
    (w ++ d).dropWhile P = w.dropWhile P ++ d := by
  induction w with
  | nil =>
    simp only [List.nil_append, List.dropWhile_nil]
    cases d with
    | nil => rfl
    | cons c cs =>
      rw [List.dropWhile_cons, if_neg]
      intro hpc
      rw [nwHead] at hd
      rw [hP c hpc] at hd
      exact Bool.noConfusion hd
  | cons a w ih =>
    rw [List.cons_append, List.dropWhile_cons, List.dropWhile_cons]
    by_cases ha : P a = true
    · rw [if_pos ha, if_pos ha]
      exact ih
    · rw [if_neg ha, if_neg ha, List.cons_append]

theorem stripCI_append {p w d : List Char}
    (hp : ∀ c ∈ p, isWordChar c = true) (hd : nwHead d = true) :
    stripCI p (w ++ d) = (stripCI p w).map (· ++ d) := by
  induction p generalizing w with
  | nil => simp only [stripCI, Option.map_some']
  | cons a ps ih =>
    cases w with
    | nil =>
      simp only [List.nil_append, stripCI, Option.map_none']
      cases d with
      | nil => rfl
      | cons c cs =>
        rw [nwHead] at hd
        simp only [stripCI]
        rw [if_neg]
        exact lower_nonword_ne (by
          cases hw : isWordChar c
          · rfl
          · rw [hw] at hd; exact Bool.noConfusion hd) (hp a (List.mem_cons_self _ _))
    | cons b w2 =>
      rw [List.cons_append]
      simp only [stripCI]
      by_cases hb : asciiLower b = a
      · rw [if_pos hb, if_pos hb]
        exact ih (fun c hc => hp c (List.mem_cons_of_mem a hc))
      · rw [if_neg hb, if_neg hb, Option.map_none']

theorem takeDigits1_append {w d : List Char}
    (hw : ∀ c ∈ w, isWordChar c = true) (hd : nwHead d = true) :
    takeDigits1 (w ++ d) = (takeDigits1 w).map (· ++ d) := by
  cases w with
  | nil =>
    simp only [List.nil_append, takeDigits1, Option.map_none']
    cases d with
    | nil => rfl
    | cons c cs =>
      rw [nwHead] at hd
      simp only [takeDigits1]
      rw [if_neg]
      intro hdig
      rw [digit_is_word hdig] at hd
      exact Bool.noConfusion hd
  | cons b w2 =>
    rw [List.cons_append]
    simp only [takeDigits1]
    by_cases hb : isDigitChar b = true
    · rw [if_pos hb, if_pos hb, Option.map_some', Option.some.injEq]
      exact dropWhile_append_word (fun c hc => digit_is_word hc) hd
    · rw [if_neg hb, if_neg hb, Option.map_none']

theorem stripTypeAlt_append {ts : List (List Char)} {w d : List Char}
    (hts : ∀ t ∈ ts, ∀ c ∈ t, isWordChar c = true) (hd : nwHead d = true) :
    stripTypeAlt ts (w ++ d) = (stripTypeAlt ts w).map (· ++ d) := by
  induction ts with
  | nil => simp only [stripTypeAlt, Option.map_none']
  | cons t ts ih =>
    simp only [stripTypeAlt]
    rw [stripCI_append (hts t (List.mem_cons_self _ _)) hd]
    cases hc : stripCI t w with
    | some r => simp only [hc, Option.map_some']
    | none =>
      simp only [hc, Option.map_none']
      exact ih (fun u hu => hts u (List.mem_cons_of_mem t hu))

theorem turnTypes_word : ∀ t ∈ turnTypes, ∀ c ∈ t, isWordChar c = true := by
  decide

theorem parseCore_append {w d : List Char}
    (hw : ∀ c ∈ w, isWordChar c = true) (hd : nwHead d = true) :
    parseCore (w ++ d) = (parseCore w).map (· ++ d) := by
  rw [parseCore, parseCore]
  rw [stripCI_append (by decide) hd]
  cases h1 : stripCI "turn".toList w with
  | none => simp only [h1, Option.map_none', Option.none_bind]
  | some r1 =>
    have hr1 : ∀ c ∈ r1, isWordChar c = true :=
      fun c hc => hw c ((stripCI_suffix h1).subset hc)
    simp only [h1, Option.map_some', Option.some_bind]
    rw [takeDigits1_append hr1 hd]
    cases h2 : takeDigits1 r1 with
    | none => simp only [h2, Option.map_none', Option.none_bind]
    | some r2 =>
      have hr2 : ∀ c ∈ r2, isWordChar c = true :=
        fun c hc => hr1 c ((takeDigits1_suffix h2).subset hc)
      simp only [h2, Option.map_some', Option.some_bind]
      rw [stripTypeAlt_append turnTypes_word hd]
      cases h3 : stripTypeAlt turnTypes r2 with
      | none => simp only [h3, Option.map_none', Option.none_bind]
      | some r3 =>
        have hr3 : ∀ c ∈ r3, isWordChar c = true :=
          fun c hc => hr2 c ((stripTypeAlt_suffix h3).subset hc)
        simp only [h3, Option.map_some', Option.some_bind]
        exact takeDigits1_append hr3 hd

theorem parseToken_isSome_iff {s : List Char} :
    (parseToken s).isSome = true ↔
      parseToken (s.takeWhile isWordChar) = some [] := by
  have hsplit : s.takeWhile isWordChar ++ s.dropWhile isWordChar = s :=
    List.takeWhile_append_dropWhile isWordChar s
  have hw : ∀ c ∈ s.takeWhile isWordChar, isWordChar c = true :=
    fun c hc => List.mem_takeWhile_imp hc
  have hd : nwHead (s.dropWhile isWordChar) = true := nwHead_dropWhile_word s
  conv_lhs => rw [← hsplit]
  rw [parseToken, parseCore_append hw hd]
  cases hc : parseCore (s.takeWhile isWordChar) with
  | none =>
    simp only [Option.map_none', Option.none_bind, Option.isSome_none,
      Bool.false_eq_true, false_iff]
    rw [parseToken, hc, Option.none_bind]
    exact fun h => Option.noConfusion h
  | some r =>
    cases r with
    | nil =>
      simp only [Option.map_some', Option.some_bind, List.nil_append]
      rw [if_pos hd]
      simp only [Option.isSome_some, true_iff]
      rw [parseToken, hc, Option.some_bind]
      rfl
    | cons c r2 =>
      have hcw : isWordChar c = true :=
        hw c ((parseCore_suffix hc).subset (List.mem_cons_self _ _))
      have hnw : nwHead (c :: (r2 ++ s.dropWhile isWordChar)) = false := by
        rw [nwHead, hcw]
        rfl
      have hnw2 : nwHead (c :: r2) = false := by
        rw [nwHead, hcw]
        rfl
      simp only [Option.map_some', Option.some_bind, List.cons_append]
      rw [if_neg (by rw [hnw]; exact Bool.false_ne_true), parseToken, hc,
        Option.some_bind, if_neg (by rw [hnw2]; exact Bool.false_ne_true)]
      simp only [Option.isSome_none, Bool.false_eq_true, false_iff]
      exact fun h => Option.noConfusion h

theorem parseToken_isSome_congr {s t : List Char}
    (h : s.takeWhile isWordChar = t.takeWhile isWordChar) :
    (parseToken s).isSome = (parseToken t).isSome := by
  cases hs : (parseToken s).isSome
  · cases ht : (parseToken t).isSome
    · rfl
    · rw [parseToken_isSome_iff, ← h, ← parseToken_isSome_iff, hs] at ht
      exact Bool.noConfusion ht
  · rw [parseToken_isSome_iff, h, ← parseToken_isSome_iff] at hs
    rw [hs]

theorem matchTurnSeqM_none {prev : Option Char} {s : List Char}
    (h : matchTurnSeqM prev s = none) (hw : prevWOf prev = false) :
    parseToken s = none := by
  rw [matchTurnSeqM, hw, matchTurnSeqAt, if_neg Bool.false_ne_true] at h
  cases hp : parseToken s with
  | none => rfl
  | some r =>
    rw [hp, Option.map_some'] at h
    exact Option.noConfusion h

theorem matchTurnSeqM_some {prev : Option Char} {s : List Char} {n : Nat}
    {r : List Char} (h : matchTurnSeqM prev s = some (n, r)) :
    matchTurnSeqAt (prevWOf prev) s = some n ∧ r = [] := by
  rw [matchTurnSeqM] at h
  cases hm : matchTurnSeqAt (prevWOf prev) s with
  | none => rw [hm] at h; exact Option.noConfusion h
  | some m =>
    simp only [hm, Option.map_some', Option.some.injEq, Prod.mk.injEq] at h
    exact ⟨by rw [h.1], h.2.symm⟩

theorem hasTokAux_nwHead_congr {t : List Char} (h : nwHead t = true)
    (b1 b2 : Bool) : hasTokAux b1 t = hasTokAux b2 t := by
  cases t with
  | nil => rfl
  | cons c cs =>
    have hcw : isWordChar c = false := by
      rw [nwHead] at h
      cases hw : isWordChar c
      · rfl
      · rw [hw] at h
        exact Bool.noConfusion h
    rw [hasTokAux, hasTokAux, parseToken_none_nonword hcw]
    simp

theorem subScan_takeWhile_word :
    ∀ (fuel : Nat) (prev : Option Char) (s : List Char),
      prevWOf prev = true →
      ((reSubCntAux matchTurnSeqM fuel prev s).1).takeWhile isWordChar =
        s.takeWhile isWordChar := by
  intro fuel
  induction fuel with
  | zero => intro prev s _; rfl
  | succ fuel ih =>
    intro prev s hp
    cases s with
    | nil => rfl
    | cons c cs =>
      have hm : matchTurnSeqM prev (c :: cs) = none := by
        rw [matchTurnSeqM, hp, matchTurnSeqAt, if_pos rfl, Option.map_none']
      simp only [reSubCntAux, hm]
      cases hw : isWordChar c with
      | true =>
        rw [List.takeWhile_cons, List.takeWhile_cons, hw, if_pos rfl,
          if_pos rfl, ih (some c) cs hw]
      | false =>
        rw [List.takeWhile_cons, List.takeWhile_cons, hw]
        simp

theorem subScan_nwHead :
    ∀ (fuel : Nat) (prev : Option Char) (s : List Char), nwHead s = true →
      nwHead ((reSubCntAux matchTurnSeqM fuel prev s).1) = true := by
  intro fuel
  induction fuel with
  | zero => intro prev s h; exact h
  | succ fuel ih =>
    intro prev s h
    cases s with
    | nil => rfl
    | cons c cs =>
      have hcw : isWordChar c = false := by
        rw [nwHead] at h
        cases hw : isWordChar c
        · rfl
        · rw [hw] at h
          exact Bool.noConfusion h
      have hm : matchTurnSeqM prev (c :: cs) = none := by
        rw [matchTurnSeqM, matchTurnSeqAt]
        split_ifs with hpw
        · rfl
        · rw [parseToken_none_nonword hcw]
          rfl
      simp only [reSubCntAux, hm]
      rw [nwHead, hcw]
      rfl

theorem subScan_noTok :
    ∀ (fuel : Nat) (prev : Option Char) (s : List Char), s.length ≤ fuel →
      hasTokAux (prevWOf prev) ((reSubCntAux matchTurnSeqM fuel prev s).1) =
        false := by
  intro fuel
  induction fuel with
  | zero =>
    intro prev s hl
    cases s with
    | nil => rfl
    | cons c cs => simp at hl
  | succ fuel ih =>
    intro prev s hl
    cases s with
    | nil => rfl
    | cons c cs =>
      cases hm : matchTurnSeqM prev (c :: cs) with
      | some nr =>
        obtain ⟨n, r⟩ := nr
        obtain ⟨hat, hr⟩ := matchTurnSeqM_some hm
        obtain ⟨hpw, hn1, hnle, hnw⟩ := matchTurnSeqAt_spec hat
        subst hr
        simp only [reSubCntAux, hm, List.nil_append]
        have hout := subScan_nwHead fuel ((c :: cs).take n).getLast?
          ((c :: cs).drop n) hnw
        rw [hasTokAux_nwHead_congr hout (prevWOf prev)
          (prevWOf ((c :: cs).take n).getLast?)]
        apply ih
        rw [List.length_drop]
        simp only [List.length_cons] at hnle hl ⊢
        omega
      | none =>
        simp only [reSubCntAux, hm]
        rw [hasTokAux]
        have hih := ih (some c) cs (by
          simp only [List.length_cons] at hl
          omega)
        cases hpw : prevWOf prev with
        | true =>
          simp only [Bool.not_true, Bool.false_and, Bool.false_or]
          exact hih
        | false =>
          have hpt : parseToken (c :: cs) = none := matchTurnSeqM_none hm hpw
          have hsame : (parseToken
              (c :: (reSubCntAux matchTurnSeqM fuel (some c) cs).1)).isSome =
              (parseToken (c :: cs)).isSome := by
            apply parseToken_isSome_congr
            cases hw : isWordChar c with
            | true =>
              rw [List.takeWhile_cons, List.takeWhile_cons, hw, if_pos rfl,
                if_pos rfl, subScan_takeWhile_word fuel (some c) cs hw]
            | false =>
              rw [List.takeWhile_cons, List.takeWhile_cons, hw]
              simp
          rw [hsame, hpt]
          simp only [Option.isSome_none, Bool.and_false, Bool.false_or]
          exact hih

theorem hasTokAux_append_token {pre : List Char} {x : Char} {suf : List Char}
    (b : Bool) (hx : isWordChar x = false)
    (hs : (parseToken suf).isSome = true) :
    hasTokAux b (pre ++ x :: suf) = true := by
  induction pre generalizing b with
  | nil =>
    cases suf with
    | nil =>
      rw [show parseToken ([] : List Char) = none from rfl] at hs
      exact absurd hs (by simp)
    | cons d ds =>
      rw [List.nil_append, hasTokAux, hx]
      have h2 : hasTokAux false (d :: ds) = true := by
        rw [hasTokAux, hs]
        simp
      rw [h2]
      simp
  | cons a pre ih =>
    rw [List.cons_append, hasTokAux, ih (isWordChar a)]
    simp

theorem drop_length_takeWhile (P : Char → Bool) (l : List Char) :
    l.drop (l.takeWhile P).length = l.dropWhile P := by
  induction l with
  | nil => rfl
  | cons c cs ih =>
    rw [List.takeWhile_cons, List.dropWhile_cons]
    by_cases hc : P c = true
    · rw [if_pos hc, if_pos hc, List.length_cons, List.drop_succ_cons]
      exact ih
    · rw [if_neg hc, if_neg hc]
      rfl

theorem matchCiteSeqAt_token {prevW : Bool} {s : List Char} {n : Nat}
    (h : matchCiteSeqAt prevW s = some n) :
    ∃ pre x suf, s = pre ++ x :: suf ∧ isWordChar x = false ∧
      (parseToken suf).isSome = true := by
  rw [matchCiteSeqAt] at h
  split_ifs at h with hw
  cases h1 : stripCI "cite".toList s with
  | none => rw [h1] at h; exact Option.noConfusion h
  | some r1 =>
    rw [h1] at h
    simp only [Option.some_bind] at h
    split_ifs at h with hnw hk
    cases hp : parseToken (r1.drop (r1.takeWhile isSpaceChar).length) with
    | none => rw [hp] at h; exact Option.noConfusion h
    | some r2 =>
      obtain ⟨pre1, hpre1⟩ := stripCI_suffix h1
      have hwsne : r1.takeWhile isSpaceChar ≠ [] := by
        intro he
        exact hk (by rw [he]; rfl)
      have hx : isSpaceChar ((r1.takeWhile isSpaceChar).getLast hwsne) = true :=
        List.mem_takeWhile_imp (List.getLast_mem hwsne)
      refine ⟨pre1 ++ (r1.takeWhile isSpaceChar).dropLast,
        (r1.takeWhile isSpaceChar).getLast hwsne, r1.dropWhile isSpaceChar,
        ?_, space_not_word hx, ?_⟩
      · rw [List.append_assoc, ← hpre1]
        have hws : (r1.takeWhile isSpaceChar).dropLast ++
            (r1.takeWhile isSpaceChar).getLast hwsne ::
              r1.dropWhile isSpaceChar =
            ((r1.takeWhile isSpaceChar).dropLast ++
              [(r1.takeWhile isSpaceChar).getLast hwsne]) ++
              r1.dropWhile isSpaceChar := by
          rw [List.append_assoc]
          rfl
        rw [hws, List.dropLast_append_getLast hwsne,
          List.takeWhile_append_dropWhile]
      · rw [← drop_length_takeWhile isSpaceChar r1, hp]
        rfl

theorem hasCiteAux_imp_tok : ∀ {s : List Char} {b : Bool},
    hasCiteAux b s = true → hasTokAux b s = true := by
  intro s
  induction s with
  | nil => intro b h; exact absurd h (by rw [hasCiteAux]; simp)
  | cons c cs ih =>
    intro b h
    rw [hasCiteAux, Bool.or_eq_true] at h
    cases h with
    | inr h2 =>
      rw [hasTokAux, Bool.or_eq_true]
      exact Or.inr (ih h2)
    | inl h1 =>
      rw [Option.isSome_iff_exists] at h1
      obtain ⟨n, hn⟩ := h1
      obtain ⟨pre, x, suf, hdec, hx, hs⟩ := matchCiteSeqAt_token hn
      rw [hdec]
      exact hasTokAux_append_token b hx hs

theorem subTurnSeq_noTok (t : List Char) :
    hasTurnTok (subTurnSeq t).1 = false := by
  rw [hasTurnTok, subTurnSeq, pySubn]
  exact subScan_noTok t.length none t (le_refl _)

theorem subTurnSeq_noCite (t : List Char) :
    hasCiteSeq (subTurnSeq t).1 = false := by
  rw [hasCiteSeq]
  cases hc : hasCiteAux false (subTurnSeq t).1 with
  | false => rfl
  | true =>
    have h1 := hasCiteAux_imp_tok hc
    have h2 := subTurnSeq_noTok t
    rw [hasTurnTok] at h2
    rw [h2] at h1
    exact Bool.noConfusion h1

def startsWithSegB : List Char → List Char → Bool
  | [], _ => true
  | _ :: _, [] => false
  | p :: ps, c :: cs => p = c && startsWithSegB ps cs

/-- Substring containment over character lists. -/
def containsSeg (p : List Char) : List Char → Bool
  | [] => p.isEmpty
  | c :: cs => startsWithSegB p (c :: cs) || containsSeg p cs

/-- Scenario S3's literal input. -/
def s3Input : List Char :=
  "See (cite turn0search1) and [cite turn2fetch3 example.com].".toList

def c8cexInput : List Char := "tu()rn0search1".toList

end ArtifactScrub
